import Mathlib

/-!
Verification of the option-pricing core (Black-Scholes pricing kernel,
implied-volatility root finder, option-chain processor) against its
natural-language specification.

The numeric Python code is embedded over the real numbers: `math.exp`,
`math.log`, `math.sqrt` and the standard normal distribution functions
of `scipy.stats.norm` become their exact real counterparts, and Python
floats become real numbers.  Fuel-bounded loops become structural
recursion on the iteration budget.
-/

open MeasureTheory Set Filter Topology

namespace OptionLab

/-! ### The standard normal density and cumulative distribution function

`scipy.stats.norm.pdf` and `scipy.stats.norm.cdf` are embedded as the exact
Gaussian density and its integral over a left-infinite ray. -/

/-- Standard normal density, the embedding of `scipy.stats.norm.pdf`. -/
noncomputable def gauss (t : ℝ) : ℝ := Real.exp (-t ^ 2 / 2) / Real.sqrt (2 * Real.pi)

/-- Standard normal cumulative distribution function, the embedding of
`scipy.stats.norm.cdf`. -/
noncomputable def normCdf (x : ℝ) : ℝ := ∫ t in Iic x, gauss t

lemma sqrt_two_pi_pos : 0 < Real.sqrt (2 * Real.pi) :=
  Real.sqrt_pos.2 (by positivity)

lemma gauss_pos (t : ℝ) : 0 < gauss t :=
  div_pos (Real.exp_pos _) sqrt_two_pi_pos

lemma gauss_nonneg (t : ℝ) : 0 ≤ gauss t := (gauss_pos t).le

lemma gauss_eq (t : ℝ) : gauss t = Real.exp (-(1 / 2) * t ^ 2) / Real.sqrt (2 * Real.pi) := by
  unfold gauss
  ring_nf

lemma integrable_gauss : Integrable gauss := by
  have h : Integrable (fun t : ℝ => Real.exp (-(1 / 2) * t ^ 2)) :=
    integrable_exp_neg_mul_sq (by norm_num)
  have h2 := h.div_const (Real.sqrt (2 * Real.pi))
  refine h2.congr ?_
  filter_upwards with t
  rw [gauss_eq]

lemma integral_gauss : ∫ t : ℝ, gauss t = 1 := by
  have h : ∫ t : ℝ, Real.exp (-(1 / 2) * t ^ 2) = Real.sqrt (Real.pi / (1 / 2)) :=
    integral_gaussian (1 / 2)
  have hfun : ∫ t : ℝ, gauss t = (∫ t : ℝ, Real.exp (-(1 / 2) * t ^ 2)) / Real.sqrt (2 * Real.pi) := by
    rw [← integral_div]
    refine integral_congr_ae ?_
    filter_upwards with t
    rw [gauss_eq]
  rw [hfun, h]
  have hpi : Real.pi / (1 / 2) = 2 * Real.pi := by ring
  rw [hpi, div_self (ne_of_gt sqrt_two_pi_pos)]

lemma integrableOn_gauss (s : Set ℝ) : IntegrableOn gauss s :=
  integrable_gauss.integrableOn

lemma normCdf_nonneg (x : ℝ) : 0 ≤ normCdf x :=
  setIntegral_nonneg measurableSet_Iic fun t _ => gauss_nonneg t

lemma normCdf_add_compl (x : ℝ) : normCdf x + ∫ t in Ioi x, gauss t = 1 := by
  have h := integral_add_compl (measurableSet_Iic (a := x)) integrable_gauss
  rw [compl_Iic] at h
  rw [normCdf, h, integral_gauss]

lemma normCdf_neg (x : ℝ) : normCdf (-x) = 1 - normCdf x := by
  have h1 : ∫ t in Ioi x, gauss t = normCdf (-x) := by
    have h2 : ∫ t in Ioi x, gauss (-t) = ∫ t in Iic (-x), gauss t :=
      integral_comp_neg_Ioi x gauss
    have h3 : ∫ t in Ioi x, gauss (-t) = ∫ t in Ioi x, gauss t := by
      refine setIntegral_congr_fun measurableSet_Ioi ?_
      intro t _
      simp [gauss, neg_pow]
    rw [← h3, h2]
    rfl
  have h4 := normCdf_add_compl x
  rw [h1] at h4
  linarith

/-! ### A Chernoff-style bound on the Gaussian tail -/

/-- Gaussian tail bound: the lower tail at `-x` is at most `exp (-x ^ 2 / 2)`,
by comparing against the exponentially tilted density, whose total mass is
computed from the translation invariance of the Lebesgue integral. -/
lemma normCdf_neg_le_exp (x : ℝ) (hx : 0 ≤ x) :
    normCdf (-x) ≤ Real.exp (-x ^ 2 / 2) := by
  have hmul : ∀ t : ℝ, gauss t * Real.exp (-(x * t) - x ^ 2)
      = Real.exp (-x ^ 2 / 2) * gauss (t + x) := by
    intro t
    unfold gauss
    rw [div_mul_eq_mul_div, ← Real.exp_add, ← mul_div_assoc, ← Real.exp_add]
    have h : -t ^ 2 / 2 + (-(x * t) - x ^ 2) = -x ^ 2 / 2 + -(t + x) ^ 2 / 2 := by ring
    rw [h]
  have hint : Integrable (fun t : ℝ => gauss t * Real.exp (-(x * t) - x ^ 2)) := by
    have h := (integrable_gauss.comp_add_right x).const_mul (Real.exp (-x ^ 2 / 2))
    refine h.congr ?_
    filter_upwards with t
    exact (hmul t).symm
  have htotal : ∫ t : ℝ, gauss t * Real.exp (-(x * t) - x ^ 2) = Real.exp (-x ^ 2 / 2) := by
    have h : ∫ t : ℝ, gauss t * Real.exp (-(x * t) - x ^ 2)
        = ∫ t : ℝ, Real.exp (-x ^ 2 / 2) * gauss (t + x) := by
      refine integral_congr_ae ?_
      filter_upwards with t
      exact hmul t
    rw [h, integral_mul_left, integral_add_right_eq_self gauss x, integral_gauss, mul_one]
  have hstep1 : normCdf (-x) ≤ ∫ t in Iic (-x), gauss t * Real.exp (-(x * t) - x ^ 2) := by
    refine setIntegral_mono_on (integrableOn_gauss _)
      (hint.integrableOn) measurableSet_Iic ?_
    intro t ht
    have ht2 : t ≤ -x := ht
    have hexp : (1 : ℝ) ≤ Real.exp (-(x * t) - x ^ 2) := by
      rw [← Real.exp_zero]
      apply Real.exp_le_exp.2
      nlinarith
    nlinarith [gauss_nonneg t, gauss_pos t]
  have hstep2 : ∫ t in Iic (-x), gauss t * Real.exp (-(x * t) - x ^ 2)
      ≤ ∫ t : ℝ, gauss t * Real.exp (-(x * t) - x ^ 2) := by
    refine setIntegral_le_integral hint ?_
    filter_upwards with t
    have := gauss_nonneg t
    positivity
  calc normCdf (-x) ≤ ∫ t in Iic (-x), gauss t * Real.exp (-(x * t) - x ^ 2) := hstep1
    _ ≤ ∫ t : ℝ, gauss t * Real.exp (-(x * t) - x ^ 2) := hstep2
    _ = Real.exp (-x ^ 2 / 2) := htotal

/-! ### Limits of the normal CDF at the two infinities -/

lemma tendsto_normCdf_atBot : Tendsto normCdf atBot (𝓝 0) := by
  have hexp : Tendsto (fun x : ℝ => Real.exp (-x ^ 2 / 2)) atBot (𝓝 0) := by
    have h1 : Tendsto (fun x : ℝ => -x ^ 2 / 2) atBot atBot := by
      have h2 : Tendsto (fun x : ℝ => x ^ 2) atBot atTop := by
        have h3 : Tendsto (fun y : ℝ => y ^ 2) atTop atTop :=
          tendsto_pow_atTop (by norm_num)
        have h4 := h3.comp tendsto_neg_atBot_atTop
        refine h4.congr ?_
        intro x
        simp [Function.comp]
      have h5 : Tendsto (fun x : ℝ => x ^ 2 / 2) atBot atTop :=
        h2.atTop_div_const (by norm_num)
      have h6 := tendsto_neg_atTop_atBot.comp h5
      refine h6.congr ?_
      intro x
      simp [Function.comp]
      ring
    exact Real.tendsto_exp_atBot.comp h1
  refine tendsto_of_tendsto_of_tendsto_of_le_of_le'
    (tendsto_const_nhds (x := (0 : ℝ))) hexp ?_ ?_
  · filter_upwards with x
    exact normCdf_nonneg x
  · filter_upwards [eventually_le_atBot (0 : ℝ)] with x hx
    have h := normCdf_neg_le_exp (-x) (by linarith)
    rw [neg_neg] at h
    simpa using h

lemma tendsto_normCdf_atTop : Tendsto normCdf atTop (𝓝 1) := by
  have h1 : Tendsto (fun x : ℝ => normCdf (-x)) atTop (𝓝 0) :=
    tendsto_normCdf_atBot.comp tendsto_neg_atTop_atBot
  have h2 : Tendsto (fun x : ℝ => 1 - normCdf (-x)) atTop (𝓝 (1 - 0)) :=
    tendsto_const_nhds.sub h1
  rw [sub_zero] at h2
  refine h2.congr ?_
  intro x
  rw [normCdf_neg]
  ring

/-! ### The normal CDF is differentiable with derivative the density -/

lemma hasDerivAt_normCdf (x : ℝ) : HasDerivAt normCdf (gauss x) x := by
  have heq : ∀ u : ℝ, normCdf u = normCdf 0 + ∫ t in (0 : ℝ)..u, gauss t := by
    intro u
    have h : normCdf u - normCdf 0 = ∫ t in (0 : ℝ)..u, gauss t :=
      intervalIntegral.integral_Iic_sub_Iic (integrableOn_gauss _) (integrableOn_gauss _)
    linarith
  have hcg : Continuous gauss := by
    unfold gauss
    fun_prop
  have h : HasStrictDerivAt (fun u => ∫ t in (0 : ℝ)..u, gauss t) (gauss x) x :=
    hcg.integral_hasStrictDerivAt 0 x
  have h2 : HasDerivAt (fun u => normCdf 0 + ∫ t in (0 : ℝ)..u, gauss t) (gauss x) x :=
    (h.hasDerivAt).const_add (normCdf 0)
  have hfun : (fun u => normCdf 0 + ∫ t in (0 : ℝ)..u, gauss t) = normCdf :=
    funext fun u => (heq u).symm
  rw [hfun] at h2
  exact h2

lemma continuous_normCdf : Continuous normCdf :=
  continuous_iff_continuousAt.2 fun x => (hasDerivAt_normCdf x).continuousAt

/-! ### Source file `utils/pricers/black_scholes.py`

The helper `_d1_d2` returns `(inf, inf)` whenever `tau <= 0`, `sigma <= 0`,
`S <= 0` or `K <= 0`, and `scipy` saturates `norm.cdf` to `1` at `+inf`
(resp. `0` at `-inf`) and `norm.pdf` to `0` at both infinities.  The real
embedding has no infinities, so each caller of `_d1_d2` gets an explicit
branch holding the saturated value the Python code computes on that path. -/

/-- Kind of the option contract, the values of the `Literal["C", "P"]` type. -/
inductive OptionType where
  | C : OptionType
  | P : OptionType
deriving DecidableEq

/-- First auxiliary quantity of `_d1_d2` on its finite path. -/
noncomputable def d1 (S K r q sigma tau : ℝ) : ℝ :=
  (Real.log (S / K) + (r - q + sigma ^ 2 / 2) * tau) / (sigma * Real.sqrt tau)

/-- Second auxiliary quantity of `_d1_d2` on its finite path. -/
noncomputable def d2 (S K r q sigma tau : ℝ) : ℝ :=
  d1 S K r q sigma tau - sigma * Real.sqrt tau

/-- Embedding of `black_scholes_price`.  The third branch is the saturated
value obtained in Python when `_d1_d2` returns `(inf, inf)` with
`sigma > 0 < tau`: `norm.cdf(inf) = 1` and `norm.cdf(-inf) = 0`. -/
noncomputable def black_scholes_price (S K r q sigma tau : ℝ) (ot : OptionType) : ℝ :=
  if tau ≤ 0 then
    match ot with
    | OptionType.C => max (S - K) 0
    | OptionType.P => max (K - S) 0
  else if sigma ≤ 0 then
    match ot with
    | OptionType.C => max (S * Real.exp (-q * tau) - K * Real.exp (-r * tau)) 0
    | OptionType.P => max (K * Real.exp (-r * tau) - S * Real.exp (-q * tau)) 0
  else if S ≤ 0 ∨ K ≤ 0 then
    match ot with
    | OptionType.C => S * Real.exp (-q * tau) - K * Real.exp (-r * tau)
    | OptionType.P => 0
  else
    match ot with
    | OptionType.C =>
        S * Real.exp (-q * tau) * normCdf (d1 S K r q sigma tau)
          - K * Real.exp (-r * tau) * normCdf (d2 S K r q sigma tau)
    | OptionType.P =>
        K * Real.exp (-r * tau) * normCdf (-d2 S K r q sigma tau)
          - S * Real.exp (-q * tau) * normCdf (-d1 S K r q sigma tau)

/-- Embedding of `bsm_vega`; on the `_d1_d2` saturated path `norm.pdf(inf) = 0`. -/
noncomputable def bsm_vega (S K r q sigma tau : ℝ) : ℝ :=
  if tau ≤ 0 ∨ sigma ≤ 0 then 0
  else if S ≤ 0 ∨ K ≤ 0 then 0
  else S * Real.exp (-q * tau) * Real.sqrt tau * gauss (d1 S K r q sigma tau)

/-- Embedding of `bsm_delta`; the middle branch is the `_d1_d2` saturated path. -/
noncomputable def bsm_delta (S K r q sigma tau : ℝ) (ot : OptionType) : ℝ :=
  if tau ≤ 0 then
    match ot with
    | OptionType.C => if S > K then 1 else 0
    | OptionType.P => if S < K then -1 else 0
  else if sigma ≤ 0 ∨ S ≤ 0 ∨ K ≤ 0 then
    match ot with
    | OptionType.C => Real.exp (-q * tau)
    | OptionType.P => 0
  else
    match ot with
    | OptionType.C => Real.exp (-q * tau) * normCdf (d1 S K r q sigma tau)
    | OptionType.P => Real.exp (-q * tau) * (normCdf (d1 S K r q sigma tau) - 1)

/-- Embedding of `bsm_gamma`; on the saturated path the numerator
`exp (-q tau) * norm.pdf(inf)` is `0`. -/
noncomputable def bsm_gamma (S K r q sigma tau : ℝ) : ℝ :=
  if tau ≤ 0 ∨ sigma ≤ 0 then 0
  else if S ≤ 0 ∨ K ≤ 0 then 0
  else Real.exp (-q * tau) * gauss (d1 S K r q sigma tau) / (S * sigma * Real.sqrt tau)

/-- Embedding of `bsm_theta`; the middle branch is the `_d1_d2` saturated path
(`norm.pdf` saturates to `0`, `norm.cdf` to `1` at `d` and `0` at `-d`). -/
noncomputable def bsm_theta (S K r q sigma tau : ℝ) (ot : OptionType) : ℝ :=
  if tau ≤ 0 then 0
  else if sigma ≤ 0 ∨ S ≤ 0 ∨ K ≤ 0 then
    match ot with
    | OptionType.C => q * S * Real.exp (-q * tau) - r * K * Real.exp (-r * tau)
    | OptionType.P => 0
  else
    let dd1 := d1 S K r q sigma tau
    let dd2 := d2 S K r q sigma tau
    let term1 := -(S * Real.exp (-q * tau) * gauss dd1 * sigma) / (2 * Real.sqrt tau)
    match ot with
    | OptionType.C =>
        term1 + q * S * Real.exp (-q * tau) * normCdf dd1
          + -(r * K * Real.exp (-r * tau) * normCdf dd2)
    | OptionType.P =>
        term1 + -(q * S * Real.exp (-q * tau) * normCdf (-dd1))
          + r * K * Real.exp (-r * tau) * normCdf (-dd2)

/-- Embedding of `bsm_rho`; the middle branch is the `_d1_d2` saturated path. -/
noncomputable def bsm_rho (S K r q sigma tau : ℝ) (ot : OptionType) : ℝ :=
  if tau ≤ 0 then 0
  else if sigma ≤ 0 ∨ S ≤ 0 ∨ K ≤ 0 then
    match ot with
    | OptionType.C => K * tau * Real.exp (-r * tau)
    | OptionType.P => 0
  else
    match ot with
    | OptionType.C => K * tau * Real.exp (-r * tau) * normCdf (d2 S K r q sigma tau)
    | OptionType.P => -(K * tau * Real.exp (-r * tau) * normCdf (-d2 S K r q sigma tau))

/-! ### Branch-unfolding lemmas for the price -/

lemma black_scholes_price_of_expired {S K r q sigma tau : ℝ} (htau : tau ≤ 0) (ot : OptionType) :
    black_scholes_price S K r q sigma tau ot =
      match ot with
      | OptionType.C => max (S - K) 0
      | OptionType.P => max (K - S) 0 := by
  unfold black_scholes_price
  rw [if_pos htau]

lemma black_scholes_price_of_degenerate {S K r q sigma tau : ℝ}
    (htau : 0 < tau) (hsigma : sigma ≤ 0) (ot : OptionType) :
    black_scholes_price S K r q sigma tau ot =
      match ot with
      | OptionType.C => max (S * Real.exp (-q * tau) - K * Real.exp (-r * tau)) 0
      | OptionType.P => max (K * Real.exp (-r * tau) - S * Real.exp (-q * tau)) 0 := by
  unfold black_scholes_price
  rw [if_neg (not_le.2 htau), if_pos hsigma]

lemma black_scholes_price_call_eq {S K r q sigma tau : ℝ}
    (hS : 0 < S) (hK : 0 < K) (hsigma : 0 < sigma) (htau : 0 < tau) :
    black_scholes_price S K r q sigma tau OptionType.C =
      S * Real.exp (-q * tau) * normCdf (d1 S K r q sigma tau)
        - K * Real.exp (-r * tau) * normCdf (d2 S K r q sigma tau) := by
  unfold black_scholes_price
  rw [if_neg (not_le.2 htau), if_neg (not_le.2 hsigma),
    if_neg (by push_neg; exact ⟨hS, hK⟩)]

/-- Put-call parity of the embedded pricer, for any volatility `sigma ≥ 0`. -/
lemma bs_parity (S K r q sigma tau : ℝ)
    (hS : 0 < S) (hK : 0 < K) (hsigma : 0 ≤ sigma) (htau : 0 < tau) :
    black_scholes_price S K r q sigma tau OptionType.C
      - black_scholes_price S K r q sigma tau OptionType.P
      = S * Real.exp (-q * tau) - K * Real.exp (-r * tau) := by
  rcases le_or_lt sigma 0 with hs0 | hs0
  · rw [black_scholes_price_of_degenerate htau hs0 OptionType.C,
      black_scholes_price_of_degenerate htau hs0 OptionType.P]
    have h := max_zero_sub_max_neg_zero_eq_self
      (S * Real.exp (-q * tau) - K * Real.exp (-r * tau))
    simp only [neg_sub] at h
    simpa [max_comm] using h
  · have hput : black_scholes_price S K r q sigma tau OptionType.P =
        K * Real.exp (-r * tau) * normCdf (-d2 S K r q sigma tau)
          - S * Real.exp (-q * tau) * normCdf (-d1 S K r q sigma tau) := by
      unfold black_scholes_price
      rw [if_neg (not_le.2 htau), if_neg (not_le.2 hs0),
        if_neg (by push_neg; exact ⟨hS, hK⟩)]
    rw [black_scholes_price_call_eq hS hK hs0 htau, hput,
      normCdf_neg (d1 S K r q sigma tau), normCdf_neg (d2 S K r q sigma tau)]
    ring

/-! ### Arbitrage bounds of the model price

The call price equals `g d2` for `g x = A * normCdf (x + c) - B * normCdf x`
with `A = S * exp (-q tau)`, `B = K * exp (-r tau)`, `c = sigma * sqrt tau`,
and `d2` is exactly the point where the derivative of `g` changes sign, so
`g d2` dominates both the limit `0` of `g` at `-inf` and the limit `A - B`
at `+inf`. -/

lemma d2_eq (S K r q sigma tau : ℝ) (hS : 0 < S) (hK : 0 < K)
    (hsigma : 0 < sigma) (htau : 0 < tau) :
    d2 S K r q sigma tau =
      (Real.log ((S * Real.exp (-q * tau)) / (K * Real.exp (-r * tau)))
        - (sigma * Real.sqrt tau) ^ 2 / 2) / (sigma * Real.sqrt tau) := by
  have hst : 0 < Real.sqrt tau := Real.sqrt_pos.2 htau
  have hc : sigma * Real.sqrt tau ≠ 0 := by positivity
  have hlog : Real.log ((S * Real.exp (-q * tau)) / (K * Real.exp (-r * tau)))
      = Real.log (S / K) + (r - q) * tau := by
    rw [Real.log_div (by positivity) (by positivity),
      Real.log_mul (ne_of_gt hS) (Real.exp_ne_zero _),
      Real.log_mul (ne_of_gt hK) (Real.exp_ne_zero _),
      Real.log_exp, Real.log_exp, Real.log_div (ne_of_gt hS) (ne_of_gt hK)]
    ring
  have hsq : (sigma * Real.sqrt tau) ^ 2 = sigma ^ 2 * tau := by
    rw [mul_pow, Real.sq_sqrt htau.le]
  have hst2 : Real.sqrt tau * Real.sqrt tau = tau := Real.mul_self_sqrt htau.le
  rw [hlog, hsq]
  unfold d2 d1
  field_simp
  nlinarith [hst2]

lemma d1_eq_d2_add {S K r q sigma tau : ℝ} :
    d1 S K r q sigma tau = d2 S K r q sigma tau + sigma * Real.sqrt tau := by
  unfold d2
  ring

lemma ray_bounds (A B c : ℝ) (hA : 0 < A) (hB : 0 < B) (hc : 0 < c) :
    max (A - B) 0
      ≤ A * normCdf ((Real.log (A / B) - c ^ 2 / 2) / c + c)
        - B * normCdf ((Real.log (A / B) - c ^ 2 / 2) / c) := by
  set dstar := (Real.log (A / B) - c ^ 2 / 2) / c with hdstar
  set g : ℝ → ℝ := fun y => A * normCdf (y + c) - B * normCdf y with hgdef
  have hAB : A = B * Real.exp (Real.log (A / B)) := by
    rw [Real.exp_log (div_pos hA hB)]
    field_simp
  have hratio_le : ∀ x : ℝ, x ≤ dstar → B * gauss x ≤ A * gauss (x + c) := by
    intro x hx
    have hineq : c * x + c ^ 2 / 2 ≤ Real.log (A / B) := by
      have h2 : x * c ≤ (Real.log (A / B) - c ^ 2 / 2) / c * c :=
        mul_le_mul_of_nonneg_right hx hc.le
      rw [div_mul_cancel₀ _ (ne_of_gt hc)] at h2
      linarith
    have hkey : B * Real.exp (-x ^ 2 / 2) ≤ A * Real.exp (-(x + c) ^ 2 / 2) := by
      rw [hAB, mul_assoc, ← Real.exp_add]
      refine mul_le_mul_of_nonneg_left (Real.exp_le_exp.2 ?_) hB.le
      nlinarith
    unfold gauss
    rw [mul_div_assoc', mul_div_assoc']
    exact div_le_div_of_nonneg_right hkey sqrt_two_pi_pos.le
  have hratio_ge : ∀ x : ℝ, dstar ≤ x → A * gauss (x + c) ≤ B * gauss x := by
    intro x hx
    have hineq : Real.log (A / B) ≤ c * x + c ^ 2 / 2 := by
      have h2 : (Real.log (A / B) - c ^ 2 / 2) / c * c ≤ x * c :=
        mul_le_mul_of_nonneg_right hx hc.le
      rw [div_mul_cancel₀ _ (ne_of_gt hc)] at h2
      linarith
    have hkey : A * Real.exp (-(x + c) ^ 2 / 2) ≤ B * Real.exp (-x ^ 2 / 2) := by
      rw [hAB, mul_assoc, ← Real.exp_add]
      refine mul_le_mul_of_nonneg_left (Real.exp_le_exp.2 ?_) hB.le
      nlinarith
    unfold gauss
    rw [mul_div_assoc', mul_div_assoc']
    exact div_le_div_of_nonneg_right hkey sqrt_two_pi_pos.le
  have hgderiv : ∀ x : ℝ, HasDerivAt g (A * gauss (x + c) - B * gauss x) x := by
    intro x
    have h1 : HasDerivAt (fun y : ℝ => y + c) 1 x := (hasDerivAt_id x).add_const c
    have h2 : HasDerivAt (fun y => normCdf (y + c)) (gauss (x + c) * 1) x :=
      (hasDerivAt_normCdf (x + c)).comp x h1
    have h3 := (h2.const_mul A).sub ((hasDerivAt_normCdf x).const_mul B)
    simpa [mul_comm] using h3
  have hgcont : Continuous g :=
    (continuous_const.mul (continuous_normCdf.comp (continuous_id.add continuous_const))).sub
      (continuous_const.mul continuous_normCdf)
  have hmono : MonotoneOn g (Iic dstar) := by
    refine monotoneOn_of_deriv_nonneg (convex_Iic dstar) hgcont.continuousOn
      (fun x _ => (hgderiv x).differentiableAt.differentiableWithinAt) ?_
    intro x hx
    rw [(hgderiv x).deriv]
    rw [interior_Iic, mem_Iio] at hx
    have := hratio_le x hx.le
    linarith
  have hanti : AntitoneOn g (Ici dstar) := by
    refine antitoneOn_of_deriv_nonpos (convex_Ici dstar) hgcont.continuousOn
      (fun x _ => (hgderiv x).differentiableAt.differentiableWithinAt) ?_
    intro x hx
    rw [(hgderiv x).deriv]
    rw [interior_Ici, mem_Ioi] at hx
    have := hratio_ge x hx.le
    linarith
  have hlim0 : Tendsto g atBot (𝓝 0) := by
    have h1 : Tendsto (fun x : ℝ => x + c) atBot atBot :=
      tendsto_atBot_add_const_right _ c tendsto_id
    have h2 : Tendsto (fun x => normCdf (x + c)) atBot (𝓝 0) :=
      tendsto_normCdf_atBot.comp h1
    have h3 : Tendsto g atBot (𝓝 (A * 0 - B * 0)) :=
      (h2.const_mul A).sub (tendsto_normCdf_atBot.const_mul B)
    simpa using h3
  have hlimtop : Tendsto g atTop (𝓝 (A - B)) := by
    have h1 : Tendsto (fun x : ℝ => x + c) atTop atTop :=
      tendsto_atTop_add_const_right _ c tendsto_id
    have h2 : Tendsto (fun x => normCdf (x + c)) atTop (𝓝 1) :=
      tendsto_normCdf_atTop.comp h1
    have h3 : Tendsto g atTop (𝓝 (A * 1 - B * 1)) :=
      (h2.const_mul A).sub (tendsto_normCdf_atTop.const_mul B)
    simpa using h3
  have hlower0 : (0 : ℝ) ≤ g dstar := by
    refine le_of_tendsto hlim0 ?_
    filter_upwards [eventually_le_atBot dstar] with x hx
    exact hmono hx (mem_Iic.2 le_rfl) hx
  have hlowerAB : A - B ≤ g dstar := by
    refine le_of_tendsto hlimtop ?_
    filter_upwards [eventually_ge_atTop dstar] with x hx
    exact hanti (mem_Ici.2 le_rfl) hx hx
  exact max_le hlowerAB hlower0

/-- Lower arbitrage bound of the call price. -/
lemma bs_call_lower {S K r q sigma tau : ℝ} (hS : 0 < S) (hK : 0 < K)
    (hsigma : 0 < sigma) (htau : 0 < tau) :
    max (S * Real.exp (-q * tau) - K * Real.exp (-r * tau)) 0
      ≤ black_scholes_price S K r q sigma tau OptionType.C := by
  have hA : 0 < S * Real.exp (-q * tau) := by positivity
  have hB : 0 < K * Real.exp (-r * tau) := by positivity
  have hc : 0 < sigma * Real.sqrt tau := by
    have := Real.sqrt_pos.2 htau
    positivity
  have hd2 := d2_eq S K r q sigma tau hS hK hsigma htau
  have hd1 : d1 S K r q sigma tau
      = (Real.log ((S * Real.exp (-q * tau)) / (K * Real.exp (-r * tau)))
          - (sigma * Real.sqrt tau) ^ 2 / 2) / (sigma * Real.sqrt tau)
        + sigma * Real.sqrt tau := by
    rw [d1_eq_d2_add, hd2]
  rw [black_scholes_price_call_eq hS hK hsigma htau, hd1, hd2]
  exact ray_bounds _ _ _ hA hB hc

/-- Upper arbitrage bound of the call price. -/
lemma bs_call_upper {S K r q sigma tau : ℝ} (hS : 0 < S) (hK : 0 < K)
    (hsigma : 0 < sigma) (htau : 0 < tau) :
    black_scholes_price S K r q sigma tau OptionType.C ≤ S * Real.exp (-q * tau) := by
  have hA : 0 < S * Real.exp (-q * tau) := by positivity
  have hB : 0 < K * Real.exp (-r * tau) := by positivity
  rw [black_scholes_price_call_eq hS hK hsigma htau]
  have h1 : normCdf (d1 S K r q sigma tau) ≤ 1 := by
    have h := normCdf_add_compl (d1 S K r q sigma tau)
    have h2 : 0 ≤ ∫ t in Ioi (d1 S K r q sigma tau), gauss t :=
      setIntegral_nonneg measurableSet_Ioi fun t _ => gauss_nonneg t
    linarith
  have h2 := normCdf_nonneg (d2 S K r q sigma tau)
  nlinarith

/-! ### Strict monotonicity of the price in the volatility -/

/-- Derivative of the call-price formula in the volatility: the
Black-Scholes vega `S * exp (-q * tau) * sqrt tau * gauss d1`.  The two
chain-rule terms collapse through the discounted-forward identity
`K * exp (-r tau) * gauss d2 = S * exp (-q tau) * gauss d1`. -/
lemma bs_call_formula_hasDerivAt_sigma (S K r q tau : ℝ) (hS : 0 < S) (hK : 0 < K)
    (htau : 0 < tau) (sigma : ℝ) (hs : 0 < sigma) :
    HasDerivAt (fun s => S * Real.exp (-q * tau) * normCdf (d1 S K r q s tau)
        - K * Real.exp (-r * tau) * normCdf (d2 S K r q s tau))
      (S * Real.exp (-q * tau) * gauss (d1 S K r q sigma tau) * Real.sqrt tau) sigma := by
  have hst : 0 < Real.sqrt tau := Real.sqrt_pos.2 htau
  have hDne : sigma * Real.sqrt tau ≠ 0 := by positivity
  have hsq : HasDerivAt (fun s : ℝ => s ^ 2) (2 * sigma) sigma := by
    simpa using hasDerivAt_pow 2 sigma
  have hN : HasDerivAt (fun s : ℝ => Real.log (S / K) + (r - q + s ^ 2 / 2) * tau)
      (2 * sigma / 2 * tau) sigma :=
    (((hsq.div_const 2).const_add (r - q)).mul_const tau).const_add (Real.log (S / K))
  have hD : HasDerivAt (fun s : ℝ => s * Real.sqrt tau) (Real.sqrt tau) sigma :=
    hasDerivAt_mul_const (Real.sqrt tau)
  have hd1 : HasDerivAt (fun s => d1 S K r q s tau)
      ((2 * sigma / 2 * tau * (sigma * Real.sqrt tau)
          - (Real.log (S / K) + (r - q + sigma ^ 2 / 2) * tau) * Real.sqrt tau)
        / (sigma * Real.sqrt tau) ^ 2) sigma := by
    unfold d1
    exact hN.div hD hDne
  have hd2 : HasDerivAt (fun s => d2 S K r q s tau)
      ((2 * sigma / 2 * tau * (sigma * Real.sqrt tau)
          - (Real.log (S / K) + (r - q + sigma ^ 2 / 2) * tau) * Real.sqrt tau)
        / (sigma * Real.sqrt tau) ^ 2 - Real.sqrt tau) sigma := by
    unfold d2
    exact hd1.sub hD
  have hF1 : HasDerivAt (fun s => normCdf (d1 S K r q s tau))
      (gauss (d1 S K r q sigma tau)
        * ((2 * sigma / 2 * tau * (sigma * Real.sqrt tau)
            - (Real.log (S / K) + (r - q + sigma ^ 2 / 2) * tau) * Real.sqrt tau)
          / (sigma * Real.sqrt tau) ^ 2)) sigma :=
    (hasDerivAt_normCdf (d1 S K r q sigma tau)).comp sigma hd1
  have hF2 : HasDerivAt (fun s => normCdf (d2 S K r q s tau))
      (gauss (d2 S K r q sigma tau)
        * ((2 * sigma / 2 * tau * (sigma * Real.sqrt tau)
            - (Real.log (S / K) + (r - q + sigma ^ 2 / 2) * tau) * Real.sqrt tau)
          / (sigma * Real.sqrt tau) ^ 2 - Real.sqrt tau)) sigma :=
    (hasDerivAt_normCdf (d2 S K r q sigma tau)).comp sigma hd2
  have hF := (hF1.const_mul (S * Real.exp (-q * tau))).sub
    (hF2.const_mul (K * Real.exp (-r * tau)))
  have hA : 0 < S * Real.exp (-q * tau) := by positivity
  have hB : 0 < K * Real.exp (-r * tau) := by positivity
  have hkey : K * Real.exp (-r * tau) * gauss (d2 S K r q sigma tau)
      = S * Real.exp (-q * tau) * gauss (d1 S K r q sigma tau) := by
    have hd2v := d2_eq S K r q sigma tau hS hK hs htau
    have hcd2 : sigma * Real.sqrt tau * d2 S K r q sigma tau
        = Real.log ((S * Real.exp (-q * tau)) / (K * Real.exp (-r * tau)))
          - (sigma * Real.sqrt tau) ^ 2 / 2 := by
      rw [hd2v]
      field_simp
      ring
    have hAB : S * Real.exp (-q * tau)
        = K * Real.exp (-r * tau)
          * Real.exp (Real.log ((S * Real.exp (-q * tau)) / (K * Real.exp (-r * tau)))) := by
      rw [Real.exp_log (div_pos hA hB)]
      field_simp
    have hnum : K * Real.exp (-r * tau) * Real.exp (-d2 S K r q sigma tau ^ 2 / 2)
        = S * Real.exp (-q * tau) * Real.exp (-d1 S K r q sigma tau ^ 2 / 2) := by
      rw [d1_eq_d2_add]
      conv_rhs => rw [hAB, mul_assoc, ← Real.exp_add]
      congr 1
      rw [Real.exp_eq_exp]
      nlinarith [hcd2]
    unfold gauss
    rw [mul_div_assoc', mul_div_assoc', hnum]
  have hval : S * Real.exp (-q * tau)
        * (gauss (d1 S K r q sigma tau)
          * ((2 * sigma / 2 * tau * (sigma * Real.sqrt tau)
              - (Real.log (S / K) + (r - q + sigma ^ 2 / 2) * tau) * Real.sqrt tau)
            / (sigma * Real.sqrt tau) ^ 2))
      - K * Real.exp (-r * tau)
        * (gauss (d2 S K r q sigma tau)
          * ((2 * sigma / 2 * tau * (sigma * Real.sqrt tau)
              - (Real.log (S / K) + (r - q + sigma ^ 2 / 2) * tau) * Real.sqrt tau)
            / (sigma * Real.sqrt tau) ^ 2 - Real.sqrt tau))
      = S * Real.exp (-q * tau) * gauss (d1 S K r q sigma tau) * Real.sqrt tau := by
    linear_combination (Real.sqrt tau
      - (2 * sigma / 2 * tau * (sigma * Real.sqrt tau)
          - (Real.log (S / K) + (r - q + sigma ^ 2 / 2) * tau) * Real.sqrt tau)
        / (sigma * Real.sqrt tau) ^ 2) * hkey
  rw [hval] at hF
  exact hF

/-- Strict monotonicity of the embedded price in the volatility, both kinds. -/
lemma bs_lt_bs_of_sigma_lt (S K r q tau sigma1 sigma2 : ℝ) (hS : 0 < S) (hK : 0 < K)
    (htau : 0 < tau) (h1 : 0 < sigma1) (h12 : sigma1 < sigma2) (ot : OptionType) :
    black_scholes_price S K r q sigma1 tau ot < black_scholes_price S K r q sigma2 tau ot := by
  have h2 : 0 < sigma2 := lt_trans h1 h12
  have hmono : StrictMonoOn (fun s => black_scholes_price S K r q s tau OptionType.C)
      (Ioi 0) := by
    have heq : EqOn (fun s => black_scholes_price S K r q s tau OptionType.C)
        (fun s => S * Real.exp (-q * tau) * normCdf (d1 S K r q s tau)
          - K * Real.exp (-r * tau) * normCdf (d2 S K r q s tau)) (Ioi 0) := by
      intro s hs
      exact black_scholes_price_call_eq hS hK (mem_Ioi.1 hs) htau
    have hcont : ContinuousOn (fun s => S * Real.exp (-q * tau) * normCdf (d1 S K r q s tau)
        - K * Real.exp (-r * tau) * normCdf (d2 S K r q s tau)) (Ioi 0) := by
      intro s hs
      exact ((bs_call_formula_hasDerivAt_sigma S K r q tau hS hK htau s
        (mem_Ioi.1 hs)).continuousAt).continuousWithinAt
    refine StrictMonoOn.congr ?_ heq.symm
    refine strictMonoOn_of_deriv_pos (convex_Ioi 0) hcont ?_
    intro s hs
    rw [interior_Ioi, mem_Ioi] at hs
    rw [(bs_call_formula_hasDerivAt_sigma S K r q tau hS hK htau s hs).deriv]
    have := gauss_pos (d1 S K r q s tau)
    have := Real.sqrt_pos.2 htau
    positivity
  have hC := hmono (mem_Ioi.2 h1) (mem_Ioi.2 h2) h12
  cases ot with
  | C => exact hC
  | P =>
    have hp1 := bs_parity S K r q sigma1 tau hS hK h1.le htau
    have hp2 := bs_parity S K r q sigma2 tau hS hK h2.le htau
    simp only at hC
    linarith

/-! ### Source file `utils/pricers/implied_volatility.py` -/

/-- Embedding of `_price_bounds`.  On the `OptionType` domain the Python
test `option_type.upper().startswith("C")` is exactly the case split below. -/
noncomputable def price_bounds (S K r q tau : ℝ) (ot : OptionType) : ℝ × ℝ :=
  match ot with
  | OptionType.C =>
      (max 0 (S * Real.exp (-q * tau) - K * Real.exp (-r * tau)), S * Real.exp (-q * tau))
  | OptionType.P =>
      (max 0 (K * Real.exp (-r * tau) - S * Real.exp (-q * tau)), K * Real.exp (-r * tau))

/-- Every model price lies inside the `_price_bounds` interval. -/
lemma bs_price_mem_bounds (S K r q tau : ℝ) (hS : 0 < S) (hK : 0 < K) (htau : 0 < tau)
    (sigma : ℝ) (ot : OptionType) :
    (price_bounds S K r q tau ot).1 ≤ black_scholes_price S K r q sigma tau ot ∧
      black_scholes_price S K r q sigma tau ot ≤ (price_bounds S K r q tau ot).2 := by
  have hA : 0 < S * Real.exp (-q * tau) := by positivity
  have hB : 0 < K * Real.exp (-r * tau) := by positivity
  rcases le_or_lt sigma 0 with hs | hs
  · cases ot with
    | C =>
      rw [black_scholes_price_of_degenerate htau hs OptionType.C]
      simp only [price_bounds]
      exact ⟨le_of_eq (max_comm 0 _), max_le (by linarith) hA.le⟩
    | P =>
      rw [black_scholes_price_of_degenerate htau hs OptionType.P]
      simp only [price_bounds]
      exact ⟨le_of_eq (max_comm 0 _), max_le (by linarith) hB.le⟩
  · cases ot with
    | C =>
      constructor
      · have h := bs_call_lower (r := r) (q := q) hS hK hs htau
        simpa [price_bounds, max_comm] using h
      · simpa [price_bounds] using bs_call_upper (r := r) (q := q) hS hK hs htau
    | P =>
      have hpar := bs_parity S K r q sigma tau hS hK hs.le htau
      have hlow := bs_call_lower (r := r) (q := q) hS hK hs htau
      have hup := bs_call_upper (r := r) (q := q) hS hK hs htau
      have h1 : S * Real.exp (-q * tau) - K * Real.exp (-r * tau)
          ≤ black_scholes_price S K r q sigma tau OptionType.C :=
        le_trans (le_max_left _ _) hlow
      have h2 : (0 : ℝ) ≤ black_scholes_price S K r q sigma tau OptionType.C :=
        le_trans (le_max_right _ _) hlow
      simp only [price_bounds]
      constructor
      · exact max_le (by linarith) (by linarith)
      · linarith

namespace Utils

/-- Embedding of `implied_vol_newton` from `utils/pricers/implied_volatility.py`.
The volatility iterate (the Python local `sigma`, started at `initial_vol`)
and the remaining iteration budget are the two recursion arguments; the
per-iteration `print` calls have no semantic content. -/
noncomputable def implied_vol_newton (market_price S K r q tau : ℝ) (ot : OptionType)
    (tol : ℝ) : ℝ → ℕ → Option ℝ
  | _, 0 => none
  | sigma, fuel + 1 =>
    let model_price := black_scholes_price S K r q sigma tau ot
    let diff := model_price - market_price
    let v := bsm_vega S K r q sigma tau
    if |diff| < tol then some sigma
    else if v < 1e-8 then none
    else
      let sigma2 := sigma - diff / v
      implied_vol_newton market_price S K r q tau ot tol
        (if sigma2 ≤ 0 then 1e-6 else sigma2) fuel

/-- Embedding of `implied_vol_bisection` from
`utils/pricers/implied_volatility.py`; after an exhausted budget the final
midpoint is returned unconditionally. -/
noncomputable def implied_vol_bisection (market_price S K r q tau : ℝ) (ot : OptionType)
    (tol : ℝ) : ℝ → ℝ → ℕ → ℝ
  | low, high, 0 => (low + high) / 2
  | low, high, fuel + 1 =>
    let mid := (low + high) / 2
    let price := black_scholes_price S K r q mid tau ot
    if |price - market_price| < tol then mid
    else if price > market_price then
      implied_vol_bisection market_price S K r q tau ot tol low mid fuel
    else
      implied_vol_bisection market_price S K r q tau ot tol mid high fuel

/-- Embedding of `implied_volatility`, the unified entry point.  The Python
`is None` guards on `price`, `S`, `K` and `tau` are vacuous in the typed
embedding; the `tau <= 0` guard is kept.  Python default arguments:
`initial_vol = 0.2`, `tol = 1e-6`, `max_iter_newton = 30`, `low = 1e-6`,
`high = 5.0`, `max_iter_bisection = 200`. -/
noncomputable def implied_volatility (price S K r q tau : ℝ) (ot : OptionType)
    (initial_vol tol : ℝ) (max_iter_newton : ℕ) (low high : ℝ)
    (max_iter_bisection : ℕ) : Option ℝ :=
  if tau ≤ 0 then none
  else
    match implied_vol_newton price S K r q tau ot tol initial_vol max_iter_newton with
    | some iv_nr => some iv_nr
    | none =>
      if price < (price_bounds S K r q tau ot).1 - 1e-12
          ∨ price > (price_bounds S K r q tau ot).2 + 1e-12 then none
      else
        some (implied_vol_bisection price S K r q tau ot tol low high max_iter_bisection)

/-- A value returned by the Newton phase is a positive volatility, because the
start is positive and every update is clamped away from the nonpositive axis. -/
lemma implied_vol_newton_pos (market_price S K r q tau : ℝ) (ot : OptionType) (tol : ℝ) :
    ∀ (fuel : ℕ) (sigma : ℝ), 0 < sigma →
      ∀ v, implied_vol_newton market_price S K r q tau ot tol sigma fuel = some v → 0 < v := by
  intro fuel
  induction fuel with
  | zero =>
    intro sigma hs v hv
    simp [implied_vol_newton] at hv
  | succ n ih =>
    intro sigma hs v hv
    rw [implied_vol_newton] at hv
    by_cases h1 : |black_scholes_price S K r q sigma tau ot - market_price| < tol
    · simp only [h1, if_pos] at hv
      cases hv
      exact hs
    · simp only [h1, if_neg, if_false] at hv
      by_cases h2 : bsm_vega S K r q sigma tau < 1e-8
      · simp [h2] at hv
      · simp only [h2, if_neg, if_false] at hv
        refine ih _ ?_ v hv
        by_cases h3 : sigma - (black_scholes_price S K r q sigma tau ot - market_price)
            / bsm_vega S K r q sigma tau ≤ 0
        · rw [if_pos h3]
          norm_num
        · rw [if_neg h3]
          linarith [not_le.1 h3]

/-- The bisection result stays inside the current bracket. -/
lemma implied_vol_bisection_mem (market_price S K r q tau : ℝ) (ot : OptionType) (tol : ℝ) :
    ∀ (fuel : ℕ) (low high : ℝ), low ≤ high →
      low ≤ implied_vol_bisection market_price S K r q tau ot tol low high fuel ∧
        implied_vol_bisection market_price S K r q tau ot tol low high fuel ≤ high := by
  intro fuel
  induction fuel with
  | zero =>
    intro low high hlh
    rw [implied_vol_bisection]
    constructor <;> [linarith; linarith]
  | succ n ih =>
    intro low high hlh
    rw [implied_vol_bisection]
    by_cases h1 : |black_scholes_price S K r q ((low + high) / 2) tau ot - market_price| < tol
    · simp only [h1, if_pos]
      constructor <;> [linarith; linarith]
    · simp only [h1, if_neg, if_false]
      by_cases h2 : black_scholes_price S K r q ((low + high) / 2) tau ot > market_price
      · simp only [h2, if_pos]
        have h3 := ih low ((low + high) / 2) (by linarith)
        exact ⟨h3.1, le_trans h3.2 (by linarith)⟩
      · simp only [h2, if_neg, if_false]
        have h3 := ih ((low + high) / 2) high (by linarith)
        exact ⟨le_trans (by linarith) h3.1, h3.2⟩

/-- Any volatility returned by the unified solver is positive, provided the
start value and the bisection bracket are positive. -/
lemma implied_volatility_pos (price S K r q tau : ℝ) (ot : OptionType)
    (initial_vol tol : ℝ) (max_iter_newton : ℕ) (low high : ℝ) (max_iter_bisection : ℕ)
    (hinit : 0 < initial_vol) (hlow : 0 < low) (hlh : low ≤ high) (v : ℝ)
    (hv : implied_volatility price S K r q tau ot initial_vol tol max_iter_newton
        low high max_iter_bisection = some v) :
    0 < v := by
  rw [implied_volatility] at hv
  by_cases htau : tau ≤ 0
  · simp [htau] at hv
  · simp only [htau, if_neg, if_false] at hv
    rcases hnr : implied_vol_newton price S K r q tau ot tol initial_vol max_iter_newton with
      _ | iv_nr
    · rw [hnr] at hv
      simp only at hv
      by_cases hb : price < (price_bounds S K r q tau ot).1 - 1e-12
          ∨ price > (price_bounds S K r q tau ot).2 + 1e-12
      · simp [hb] at hv
      · simp only [hb, if_neg, if_false, Option.some.injEq] at hv
        have hmem := implied_vol_bisection_mem price S K r q tau ot tol
          max_iter_bisection low high hlh
        rw [hv] at hmem
        linarith [hmem.1]
    · rw [hnr] at hv
      simp only [Option.some.injEq] at hv
      rw [← hv]
      exact implied_vol_newton_pos price S K r q tau ot tol
        max_iter_newton initial_vol hinit iv_nr hnr

end Utils

namespace Pricers

/-- Embedding of `implied_vol_newton` from `pricers/implied_volatility.py`.
This variant computes the vega after the convergence test and leaves the
loop with `break`; both are the `else` branches below. -/
noncomputable def implied_vol_newton (market_price S K r q tau : ℝ) (ot : OptionType)
    (tol : ℝ) : ℝ → ℕ → Option ℝ
  | _, 0 => none
  | sigma, fuel + 1 =>
    let model_price := black_scholes_price S K r q sigma tau ot
    let diff := model_price - market_price
    if |diff| < tol then some sigma
    else
      let v := bsm_vega S K r q sigma tau
      if v < 1e-8 then none
      else
        let sigma2 := sigma - diff / v
        implied_vol_newton market_price S K r q tau ot tol
          (if sigma2 ≤ 0 then 1e-6 else sigma2) fuel

/-- Embedding of `implied_vol_bisection` from `pricers/implied_volatility.py`. -/
noncomputable def implied_vol_bisection (market_price S K r q tau : ℝ) (ot : OptionType)
    (tol : ℝ) : ℝ → ℝ → ℕ → ℝ
  | low, high, 0 => (low + high) / 2
  | low, high, fuel + 1 =>
    let mid := (low + high) / 2
    let price := black_scholes_price S K r q mid tau ot
    if |price - market_price| < tol then mid
    else if price > market_price then
      implied_vol_bisection market_price S K r q tau ot tol low mid fuel
    else
      implied_vol_bisection market_price S K r q tau ot tol mid high fuel

end Pricers

/-! ### Source file `utils/data_processors/option_chain_processor.py`

A raw quote is a Python dict.  The outer `Option` of every `RawRow` field
models presence of the dict key: subscripting a missing key raises
`KeyError`, embedded as `Except.error ()`.  For `bid` and `ask` the inner
`Option` models a present key holding the value `None`.  Python float
faults (overflow in `exp`, `0.0 / 0.0`) are outside the real embedding. -/

/-- A raw option-chain record, one element of `raw_chain`. -/
structure RawRow where
  symbol : Option String
  expiry : Option String
  strike : Option ℝ
  type : Option OptionType
  bid : Option (Option ℝ)
  ask : Option (Option ℝ)

/-- The `OptionPoint` dataclass.  `bid`, `ask` and `mid` are `Option ℝ`
because the corresponding Python fields can hold `None` at runtime even
though the dataclass annotates them as `float`. -/
structure OptionPoint where
  symbol : String
  expiry : String
  strike : ℝ
  type : OptionType
  bid : Option ℝ
  ask : Option ℝ
  mid : Option ℝ
  implied_vol : Option ℝ
  delta : Option ℝ
  gamma : Option ℝ
  theta : Option ℝ
  rho : Option ℝ

/-- Embedding of the dict subscript `row[key]`: a missing key raises
`KeyError`. -/
def getKey {α : Type} (f : Option α) : Except Unit α :=
  match f with
  | none => Except.error ()
  | some a => Except.ok a

/-- Embedding of `mid = (bid + ask) / 2 if (bid and ask) else None`: the
Python truthiness test makes a missing side and a present but zero side
equally falsy. -/
noncomputable def rowMid (bid ask : Option ℝ) : Option ℝ :=
  match bid, ask with
  | some b, some a => if b = 0 ∨ a = 0 then none else some ((b + a) / 2)
  | _, _ => none

/-- Embedding of the implied-volatility step of the loop body: guarded by
`if mid and mid > 0`, and the `row["strike"]` / `row["type"]` subscripts sit
inside the `try` block whose handler turns any failure into `iv = None`.
The solver is called with its Python default arguments. -/
noncomputable def rowIV (r q spot tau : ℝ) (row : RawRow) (mid : Option ℝ) : Option ℝ :=
  match mid with
  | some m =>
    if m > 0 then
      match row.strike, row.type with
      | some k, some ot =>
          Utils.implied_volatility m spot k r q tau ot 0.2 1e-6 30 1e-6 5.0 200
      | _, _ => none
    else none
  | none => none

/-- Embedding of the Greek step: it runs only under `if iv:` (both `None`
and `0.0` are falsy), and its `row["strike"]` / `row["type"]` subscripts are
outside any handler, so a missing key there escapes the batch call. -/
noncomputable def rowGreeks (r q spot tau : ℝ) (row : RawRow) (iv : Option ℝ) :
    Except Unit (Option ℝ × Option ℝ × Option ℝ × Option ℝ) :=
  match iv with
  | some v =>
    if v = 0 then Except.ok (none, none, none, none)
    else do
      let k ← getKey row.strike
      let ot ← getKey row.type
      Except.ok (some (bsm_delta spot k r q v tau ot), some (bsm_gamma spot k r q v tau),
        some (bsm_theta spot k r q v tau ot), some (bsm_rho spot k r q v tau ot))
  | none => Except.ok (none, none, none, none)

/-- Embedding of one iteration of the `process_chain` loop body; the final
`OptionPoint(...)` construction reads `symbol`, `expiry`, `strike` and
`type` outside any handler. -/
noncomputable def processRow (r q spot tau : ℝ) (row : RawRow) : Except Unit OptionPoint := do
  let bid ← getKey row.bid
  let ask ← getKey row.ask
  let mid := rowMid bid ask
  let iv := rowIV r q spot tau row mid
  let greeks ← rowGreeks r q spot tau row iv
  let symbol ← getKey row.symbol
  let expiry ← getKey row.expiry
  let strike ← getKey row.strike
  let ot ← getKey row.type
  Except.ok
    { symbol := symbol, expiry := expiry, strike := strike, type := ot,
      bid := bid, ask := ask, mid := mid, implied_vol := iv,
      delta := greeks.1, gamma := greeks.2.1, theta := greeks.2.2.1, rho := greeks.2.2.2 }

/-- Embedding of `OptionChainProcessor.process_chain`: the loop appends one
`OptionPoint` per row in order, and the first uncaught exception aborts the
whole call. -/
noncomputable def process_chain (r q : ℝ) (raw_chain : List RawRow) (spot tau : ℝ) :
    Except Unit (List OptionPoint) :=
  match raw_chain with
  | [] => Except.ok []
  | row :: rest => do
    let pt ← processRow r q spot tau row
    let pts ← process_chain r q rest spot tau
    Except.ok (pt :: pts)

/-! ### Structural lemmas about the chain processor -/

lemma rowIV_pos (r q spot tau : ℝ) (row : RawRow) (mid : Option ℝ) (v : ℝ)
    (h : rowIV r q spot tau row mid = some v) : 0 < v := by
  unfold rowIV at h
  rcases mid with _ | m
  · simp at h
  · simp only at h
    by_cases hm : m > 0
    · rw [if_pos hm] at h
      rcases hk : row.strike with _ | k <;> rcases ht : row.type with _ | t <;>
        rw [hk, ht] at h <;> simp only at h
      · exact absurd h (by simp)
      · exact absurd h (by simp)
      · exact absurd h (by simp)
      · exact Utils.implied_volatility_pos m spot k r q tau t 0.2 1e-6 30 1e-6 5.0 200
          (by norm_num) (by norm_num) (by norm_num) v h
    · rw [if_neg hm] at h
      exact absurd h (by simp)

lemma rowGreeks_none (r q spot tau : ℝ) (row : RawRow) :
    rowGreeks r q spot tau row none = Except.ok (none, none, none, none) := rfl

lemma rowGreeks_some (r q spot tau : ℝ) (row : RawRow) (v : ℝ) (hv : v ≠ 0)
    (k : ℝ) (t : OptionType) (hk : row.strike = some k) (ht : row.type = some t) :
    rowGreeks r q spot tau row (some v) =
      Except.ok (some (bsm_delta spot k r q v tau t), some (bsm_gamma spot k r q v tau),
        some (bsm_theta spot k r q v tau t), some (bsm_rho spot k r q v tau t)) := by
  simp [rowGreeks, getKey, hk, ht, hv, Bind.bind, Except.bind]

lemma processRow_ok_elim (r q spot tau : ℝ) (row : RawRow) (pt : OptionPoint)
    (h : processRow r q spot tau row = Except.ok pt) :
    ∃ bv av g, row.bid = some bv ∧ row.ask = some av ∧
      pt.bid = bv ∧ pt.ask = av ∧
      pt.mid = rowMid bv av ∧
      pt.implied_vol = rowIV r q spot tau row (rowMid bv av) ∧
      rowGreeks r q spot tau row (rowIV r q spot tau row (rowMid bv av)) = Except.ok g ∧
      pt.delta = g.1 ∧ pt.gamma = g.2.1 ∧ pt.theta = g.2.2.1 ∧ pt.rho = g.2.2.2 ∧
      row.symbol = some pt.symbol ∧ row.expiry = some pt.expiry ∧
      row.strike = some pt.strike ∧ row.type = some pt.type := by
  unfold processRow at h
  rcases hb : row.bid with _ | bv <;> rw [hb] at h
  · simp [getKey, Bind.bind, Except.bind] at h
  rcases ha : row.ask with _ | av <;> rw [ha] at h
  · simp [getKey, Bind.bind, Except.bind] at h
  simp only [getKey, Bind.bind, Except.bind] at h
  rcases hg : rowGreeks r q spot tau row (rowIV r q spot tau row (rowMid bv av)) with e | g <;>
    rw [hg] at h
  · simp at h
  simp only at h
  rcases hsy : row.symbol with _ | sy <;> rw [hsy] at h
  · simp at h
  rcases hex : row.expiry with _ | ex <;> rw [hex] at h
  · simp at h
  rcases hk : row.strike with _ | k <;> rw [hk] at h
  · simp at h
  rcases ht : row.type with _ | t <;> rw [ht] at h
  · simp at h
  simp only [Except.ok.injEq] at h
  subst h
  exact ⟨bv, av, g, rfl, rfl, rfl, rfl, rfl, rfl, hg, rfl, rfl, rfl, rfl,
    rfl, rfl, rfl, rfl⟩

lemma processRow_joint (r q spot tau : ℝ) (row : RawRow) (pt : OptionPoint)
    (h : processRow r q spot tau row = Except.ok pt) :
    (pt.implied_vol.isSome ↔ pt.delta.isSome) ∧ (pt.implied_vol.isSome ↔ pt.gamma.isSome)
      ∧ (pt.implied_vol.isSome ↔ pt.theta.isSome)
      ∧ (pt.implied_vol.isSome ↔ pt.rho.isSome) := by
  obtain ⟨bv, av, g, hb, ha, hbid, hask, hmid, hiv, hg, hd, hga, hth, hrh, _, _, _, _⟩ :=
    processRow_ok_elim r q spot tau row pt h
  rcases hivv : rowIV r q spot tau row (rowMid bv av) with _ | v
  · rw [hivv] at hiv hg
    rw [rowGreeks_none] at hg
    have hgeq : g = (none, none, none, none) := by
      injection hg with hg2
      exact hg2.symm
    rw [hgeq] at hd hga hth hrh
    simp [hiv, hd, hga, hth, hrh]
  · have hvpos := rowIV_pos r q spot tau row (rowMid bv av) v hivv
    have hkeys : ∃ k t, row.strike = some k ∧ row.type = some t := by
      have h2 := hivv
      unfold rowIV at h2
      rcases hmid2 : rowMid bv av with _ | m <;> rw [hmid2] at h2
      · simp at h2
      · simp only at h2
        by_cases hm : m > 0
        · rw [if_pos hm] at h2
          rcases hk : row.strike with _ | k <;> rcases ht : row.type with _ | t <;>
            rw [hk, ht] at h2 <;> simp only at h2
          · exact absurd h2 (by simp)
          · exact absurd h2 (by simp)
          · exact absurd h2 (by simp)
          · exact ⟨k, t, rfl, rfl⟩
        · rw [if_neg hm] at h2
          exact absurd h2 (by simp)
    obtain ⟨k, t, hk, ht⟩ := hkeys
    rw [hivv] at hiv hg
    rw [rowGreeks_some r q spot tau row v hvpos.ne' k t hk ht] at hg
    have hgeq : g = (some (bsm_delta spot k r q v tau t), some (bsm_gamma spot k r q v tau),
        some (bsm_theta spot k r q v tau t), some (bsm_rho spot k r q v tau t)) := by
      injection hg with hg2
      exact hg2.symm
    rw [hgeq] at hd hga hth hrh
    simp [hiv, hd, hga, hth, hrh]

lemma processRow_ok_of_keys (r q spot tau : ℝ) (row : RawRow)
    (sy ex : String) (k : ℝ) (t : OptionType) (bv av : Option ℝ)
    (hsy : row.symbol = some sy) (hex : row.expiry = some ex) (hk : row.strike = some k)
    (ht : row.type = some t) (hb : row.bid = some bv) (ha : row.ask = some av) :
    ∃ pt, processRow r q spot tau row = Except.ok pt ∧
      pt.symbol = sy ∧ pt.strike = k := by
  rcases hiv : rowIV r q spot tau row (rowMid bv av) with _ | v
  · have heq : processRow r q spot tau row = Except.ok
        { symbol := sy, expiry := ex, strike := k, type := t, bid := bv, ask := av,
          mid := rowMid bv av, implied_vol := rowIV r q spot tau row (rowMid bv av),
          delta := none, gamma := none, theta := none, rho := none } := by
      unfold processRow
      rw [hb, ha, hsy, hex, hk, ht]
      simp only [getKey, Bind.bind, Except.bind, hiv, rowGreeks_none]
    exact ⟨_, heq, rfl, rfl⟩
  · have hvpos := rowIV_pos r q spot tau row (rowMid bv av) v hiv
    have heq : processRow r q spot tau row = Except.ok
        { symbol := sy, expiry := ex, strike := k, type := t, bid := bv, ask := av,
          mid := rowMid bv av, implied_vol := rowIV r q spot tau row (rowMid bv av),
          delta := some (bsm_delta spot k r q v tau t),
          gamma := some (bsm_gamma spot k r q v tau),
          theta := some (bsm_theta spot k r q v tau t),
          rho := some (bsm_rho spot k r q v tau t) } := by
      unfold processRow
      rw [hb, ha, hsy, hex, hk, ht]
      simp only [getKey, Bind.bind, Except.bind, hiv,
        rowGreeks_some r q spot tau row v hvpos.ne' k t hk ht]
    exact ⟨_, heq, rfl, rfl⟩

/-! ### The claims -/

/-- C10: For identical arguments (market price, S, K, r, q, tau, kind,
volatility iterate, tolerance, iteration budget, and bisection bracket),
`implied_vol_newton` and `implied_vol_bisection` in the simpler module
(`pricers/implied_volatility.py`) return exactly the same result as their
namesakes in the hybrid print-tracing module
(`utils/pricers/implied_volatility.py`): the two implementations differ only
in console output and default parameter values, not in computed results. -/
theorem claim_C10 (market_price S K r q tau : ℝ) (ot : OptionType) (tol : ℝ)
    (sigma low high : ℝ) (fuel_newton fuel_bisection : ℕ) :
    Pricers.implied_vol_newton market_price S K r q tau ot tol sigma fuel_newton
      = Utils.implied_vol_newton market_price S K r q tau ot tol sigma fuel_newton
    ∧ Pricers.implied_vol_bisection market_price S K r q tau ot tol low high fuel_bisection
      = Utils.implied_vol_bisection market_price S K r q tau ot tol low high fuel_bisection := by
  constructor
  · induction fuel_newton generalizing sigma with
    | zero => rfl
    | succ n ih =>
      rw [Pricers.implied_vol_newton, Utils.implied_vol_newton]
      by_cases h1 : |black_scholes_price S K r q sigma tau ot - market_price| < tol
      · simp [h1]
      · simp only [h1, if_neg, if_false]
        by_cases h2 : bsm_vega S K r q sigma tau < 1e-8
        · simp [h2]
        · simp only [h2, if_neg, if_false]
          exact ih _
  · induction fuel_bisection generalizing low high with
    | zero => rfl
    | succ n ih =>
      rw [Pricers.implied_vol_bisection, Utils.implied_vol_bisection]
      by_cases h1 : |black_scholes_price S K r q ((low + high) / 2) tau ot
          - market_price| < tol
      · simp [h1]
      · simp only [h1, if_neg, if_false]
        by_cases h2 : black_scholes_price S K r q ((low + high) / 2) tau ot > market_price
        · simp only [h2, if_pos]
          exact ih _ _
        · simp only [h2, if_neg, if_false]
          exact ih _ _

/-- C4: For every identical parameter tuple with `S > 0`, `K > 0`, real `r`
and `q`, `sigma ≥ 0` and `tau > 0`, the call price minus the put price
returned by `black_scholes_price` equals `S * exp (-q * tau) - K * exp (-r * tau)`
(put-call parity), including the degenerate `sigma = 0` branch. -/
theorem claim_C4 (S K r q sigma tau : ℝ) (hS : 0 < S) (hK : 0 < K)
    (hsigma : 0 ≤ sigma) (htau : 0 < tau) :
    black_scholes_price S K r q sigma tau OptionType.C
      - black_scholes_price S K r q sigma tau OptionType.P
      = S * Real.exp (-q * tau) - K * Real.exp (-r * tau) :=
  bs_parity S K r q sigma tau hS hK hsigma htau

/-- Witness for C4 at `S = K = 1`, `r = q = 0`, `sigma = 0`, `tau = 1`. -/
theorem claim_C4_witness :
    (0 : ℝ) < 1 ∧ (0 : ℝ) ≤ 0 ∧
      black_scholes_price 1 1 0 0 0 1 OptionType.C
        - black_scholes_price 1 1 0 0 0 1 OptionType.P
        = 1 * Real.exp (-0 * 1) - 1 * Real.exp (-0 * 1) :=
  ⟨by norm_num, le_refl 0,
    claim_C4 1 1 0 0 0 1 (by norm_num) (by norm_num) (le_refl 0) (by norm_num)⟩

/-- C7: For every `S`, `K`, `r`, `q`, `sigma` and every `tau ≤ 0`,
`black_scholes_price` returns the intrinsic value — `max (S - K) 0` for a
call and `max (K - S) 0` for a put — independently of `sigma` (the statement
quantifies over `sigma` and the right-hand sides do not mention it). -/
theorem claim_C7 (S K r q sigma tau : ℝ) (htau : tau ≤ 0) :
    black_scholes_price S K r q sigma tau OptionType.C = max (S - K) 0
      ∧ black_scholes_price S K r q sigma tau OptionType.P = max (K - S) 0 :=
  ⟨black_scholes_price_of_expired htau OptionType.C,
    black_scholes_price_of_expired htau OptionType.P⟩

/-- Witness for C7 at the spec scenario `tau = 0`, `S = 105`, `K = 100`. -/
theorem claim_C7_witness :
    (0 : ℝ) ≤ 0 ∧
      black_scholes_price 105 100 0.05 0 0.2 0 OptionType.C = max (105 - 100) 0
      ∧ black_scholes_price 105 100 0.05 0 0.2 0 OptionType.P = max (100 - 105) 0 :=
  ⟨le_refl 0, claim_C7 105 100 0.05 0 0.2 0 (le_refl 0)⟩

/-- C9: For every `S > 0`, `K > 0` and all real `r`, `q`, `sigma` and `tau`
(including negative `sigma` and `tau`), `black_scholes_price` returns a
non-negative value for both calls and puts. -/
theorem claim_C9 (S K r q sigma tau : ℝ) (hS : 0 < S) (hK : 0 < K) (ot : OptionType) :
    0 ≤ black_scholes_price S K r q sigma tau ot := by
  rcases le_or_lt tau 0 with htau | htau
  · rw [black_scholes_price_of_expired htau ot]
    cases ot
    · exact le_max_right _ _
    · exact le_max_right _ _
  · have h := bs_price_mem_bounds S K r q tau hS hK htau sigma ot
    have hlb : 0 ≤ (price_bounds S K r q tau ot).1 := by
      cases ot
      · exact le_max_left _ _
      · exact le_max_left _ _
    linarith [h.1]

/-- Witness for C9 at negative `sigma` and `tau`. -/
theorem claim_C9_witness :
    (0 : ℝ) < 100 ∧ (0 : ℝ) < 90 ∧
      0 ≤ black_scholes_price 100 90 0.05 0.01 (-1) (-2) OptionType.P :=
  ⟨by norm_num, by norm_num,
    claim_C9 100 90 0.05 0.01 (-1) (-2) (by norm_num) (by norm_num) OptionType.P⟩

/-- C6: For every `S > 0`, `K > 0`, real `r` and `q`, `tau > 0`, kind, and
every pair of volatilities `0 < sigma1 < sigma2`, the price at `sigma1` is
strictly less than the price at `sigma2`. -/
theorem claim_C6 (S K r q tau sigma1 sigma2 : ℝ) (hS : 0 < S) (hK : 0 < K)
    (htau : 0 < tau) (h1 : 0 < sigma1) (h12 : sigma1 < sigma2) (ot : OptionType) :
    black_scholes_price S K r q sigma1 tau ot < black_scholes_price S K r q sigma2 tau ot :=
  bs_lt_bs_of_sigma_lt S K r q tau sigma1 sigma2 hS hK htau h1 h12 ot

/-- Witness for C6 at `sigma1 = 0.1 < sigma2 = 0.3`. -/
theorem claim_C6_witness :
    (0 : ℝ) < 100 ∧ (0 : ℝ) < 0.1 ∧ (0.1 : ℝ) < 0.3 ∧
      black_scholes_price 100 100 0.05 0 0.1 1 OptionType.C
        < black_scholes_price 100 100 0.05 0 0.3 1 OptionType.C :=
  ⟨by norm_num, by norm_num, by norm_num,
    claim_C6 100 100 0.05 0 1 0.1 0.3 (by norm_num) (by norm_num) (by norm_num)
      (by norm_num) (by norm_num) OptionType.C⟩

/-- C3: If the market price lies outside the no-arbitrage bounds by more
than the solver tolerance (itself at least the hard-coded `1e-12` slack),
then `implied_volatility` returns absent.  Since the bisection branch of
`implied_volatility` always wraps its result in `some`, an absent result
also shows the bisection phase was never run. -/
theorem claim_C3 (price S K r q tau : ℝ) (ot : OptionType) (initial_vol tol : ℝ)
    (max_iter_newton : ℕ) (low high : ℝ) (max_iter_bisection : ℕ)
    (hS : 0 < S) (hK : 0 < K) (htau : 0 < tau) (htol : 1e-12 ≤ tol)
    (hout : price > (price_bounds S K r q tau ot).2 + tol
      ∨ price < (price_bounds S K r q tau ot).1 - tol) :
    Utils.implied_volatility price S K r q tau ot initial_vol tol max_iter_newton
      low high max_iter_bisection = none := by
  have hfar : ∀ sigma, tol ≤ |black_scholes_price S K r q sigma tau ot - price| := by
    intro sigma
    have hmem := bs_price_mem_bounds S K r q tau hS hK htau sigma ot
    rcases hout with h | h
    · calc tol ≤ price - black_scholes_price S K r q sigma tau ot := by linarith [hmem.2]
        _ ≤ |price - black_scholes_price S K r q sigma tau ot| := le_abs_self _
        _ = |black_scholes_price S K r q sigma tau ot - price| := abs_sub_comm _ _
    · calc tol ≤ black_scholes_price S K r q sigma tau ot - price := by linarith [hmem.1]
        _ ≤ |black_scholes_price S K r q sigma tau ot - price| := le_abs_self _
  have hnone : ∀ (fuel : ℕ) (sigma : ℝ),
      Utils.implied_vol_newton price S K r q tau ot tol sigma fuel = none := by
    intro fuel
    induction fuel with
    | zero =>
      intro sigma
      simp [Utils.implied_vol_newton]
    | succ n ih =>
      intro sigma
      rw [Utils.implied_vol_newton]
      have h1 : ¬ |black_scholes_price S K r q sigma tau ot - price| < tol :=
        not_lt.2 (hfar sigma)
      simp only [h1, if_neg, if_false]
      by_cases h2 : bsm_vega S K r q sigma tau < 1e-8
      · simp [h2]
      · simp only [h2, if_neg, if_false]
        exact ih _
  rw [Utils.implied_volatility, if_neg (not_le.2 htau), hnone max_iter_newton initial_vol]
  simp only
  rw [if_pos]
  rcases hout with h | h
  · exact Or.inr (by linarith)
  · exact Or.inl (by linarith)

/-- Witness for C3: a market price equal to twice the theoretical upper
bound (the spec scenario) is rejected with an absent result. -/
theorem claim_C3_witness :
    (0 : ℝ) < 1 ∧ (1e-12 : ℝ) ≤ 1e-6 ∧
      (2 : ℝ) = 2 * (price_bounds 1 1 0 0 1 OptionType.C).2 ∧
      ((2 : ℝ) > (price_bounds 1 1 0 0 1 OptionType.C).2 + 1e-6
        ∨ (2 : ℝ) < (price_bounds 1 1 0 0 1 OptionType.C).1 - 1e-6) ∧
      Utils.implied_volatility 2 1 1 0 0 1 OptionType.C 0.2 1e-6 30 1e-6 5 200 = none := by
  have hub : (price_bounds 1 1 0 0 1 OptionType.C).2 = 1 := by
    simp [price_bounds, Real.exp_zero]
  have hout : (2 : ℝ) > (price_bounds 1 1 0 0 1 OptionType.C).2 + 1e-6
      ∨ (2 : ℝ) < (price_bounds 1 1 0 0 1 OptionType.C).1 - 1e-6 := by
    left
    rw [hub]
    norm_num
  exact ⟨by norm_num, by norm_num, by rw [hub]; norm_num, hout,
    claim_C3 2 1 1 0 0 1 OptionType.C 0.2 1e-6 30 1e-6 5 200 (by norm_num) (by norm_num)
      (by norm_num) (by norm_num) hout⟩

/-- C2 counterexample: at `S = 1`, `K = exp 14`, `r = q = 0`, `tau = 1` and
true volatility `sigma = 10`, the solver (with default settings) does return
a volatility — Newton stalls immediately on the negligible vega at the start
`0.2`, the model price passes the bounds check, and bisection returns a
value capped by its bracket `[1e-6, 5]` — but re-pricing at the returned
volatility misses the original model price by at least `0.49`, far beyond
`tol * 10 = 1e-5`.  `Option.elim False ...` states both facts at once: the
result is `some`, and its re-pricing error is at least `1e-5`. -/
theorem claim_C2_counterexample :
    (Utils.implied_volatility (black_scholes_price 1 (Real.exp 14) 0 0 10 1 OptionType.C)
        1 (Real.exp 14) 0 0 1 OptionType.C 0.2 1e-6 30 1e-6 5 200).elim False
      (fun s => 1e-5 ≤ |black_scholes_price 1 (Real.exp 14) 0 0 s 1 OptionType.C
        - black_scholes_price 1 (Real.exp 14) 0 0 10 1 OptionType.C|) := by
  have hexp6 : (403 : ℝ) < Real.exp 6 := by
    have h1 : (2.7182818283 : ℝ) ^ 6 < Real.exp 1 ^ 6 := by
      refine pow_lt_pow_left Real.exp_one_gt_d9 (by norm_num) (by norm_num)
    have h2 : Real.exp 1 ^ 6 = Real.exp 6 := by
      rw [← Real.exp_nat_mul]
      norm_num
    have h3 : (403 : ℝ) < 2.7182818283 ^ 6 := by norm_num
    linarith
  have hexpneg6 : Real.exp (-6) < 0.0025 := by
    rw [Real.exp_neg]
    rw [inv_lt_iff_one_lt_mul₀ (by positivity)]
    nlinarith
  have hexp19 : (1e8 : ℝ) < Real.exp 19 := by
    have h1 : (2.7182818283 : ℝ) ^ 19 < Real.exp 1 ^ 19 := by
      refine pow_lt_pow_left Real.exp_one_gt_d9 (by norm_num) (by norm_num)
    have h2 : Real.exp 1 ^ 19 = Real.exp 19 := by
      rw [← Real.exp_nat_mul]
      norm_num
    have h3 : (1e8 : ℝ) < 2.7182818283 ^ 19 := by norm_num
    linarith
  have hexpneg19 : Real.exp (-19) < 1e-8 := by
    rw [Real.exp_neg]
    rw [inv_lt_iff_one_lt_mul₀ (by positivity)]
    nlinarith
  have hgle : ∀ t : ℝ, gauss t ≤ Real.exp (-t ^ 2 / 2) := by
    intro t
    unfold gauss
    have h1 : (1 : ℝ) ≤ Real.sqrt (2 * Real.pi) := by
      rw [show (1 : ℝ) = Real.sqrt 1 from (Real.sqrt_one).symm]
      refine Real.sqrt_le_sqrt ?_
      nlinarith [Real.pi_gt_three]
    calc Real.exp (-t ^ 2 / 2) / Real.sqrt (2 * Real.pi)
        ≤ Real.exp (-t ^ 2 / 2) / 1 := by
          refine div_le_div_of_nonneg_left (Real.exp_pos _).le ?_ h1
          norm_num
      _ = Real.exp (-t ^ 2 / 2) := by rw [div_one]
  have hd1eval : ∀ s : ℝ, s ≠ 0 → d1 1 (Real.exp 14) 0 0 s 1 = (-14 + s ^ 2 / 2) / s := by
    intro s hs
    unfold d1
    rw [Real.sqrt_one, Real.log_div one_ne_zero (Real.exp_ne_zero 14),
      Real.log_one, Real.log_exp]
    ring
  have hbseval : ∀ s : ℝ, 0 < s →
      black_scholes_price 1 (Real.exp 14) 0 0 s 1 OptionType.C
        = normCdf ((-14 + s ^ 2 / 2) / s)
          - Real.exp 14 * normCdf ((-14 + s ^ 2 / 2) / s - s) := by
    intro s hs
    rw [black_scholes_price_call_eq (by norm_num) (Real.exp_pos 14) hs (by norm_num)]
    unfold d2
    rw [hd1eval s hs.ne', Real.sqrt_one]
    norm_num [Real.exp_zero]
  have hPge : 0.99 ≤ black_scholes_price 1 (Real.exp 14) 0 0 10 1 OptionType.C := by
    rw [hbseval 10 (by norm_num)]
    rw [show ((-14 : ℝ) + 10 ^ 2 / 2) / 10 = 3.6 by norm_num,
      show (3.6 : ℝ) - 10 = -6.4 by norm_num]
    have h1 : normCdf (-3.6) ≤ Real.exp (-6.48) := by
      have h := normCdf_neg_le_exp 3.6 (by norm_num)
      have heq : -(3.6 : ℝ) ^ 2 / 2 = -6.48 := by norm_num
      rw [heq] at h
      exact h
    have h2 : normCdf 3.6 = 1 - normCdf (-3.6) := by
      have h := normCdf_neg (3.6 : ℝ)
      linarith
    have h3 : normCdf (-6.4) ≤ Real.exp (-20.48) := by
      have h := normCdf_neg_le_exp 6.4 (by norm_num)
      have heq : -(6.4 : ℝ) ^ 2 / 2 = -20.48 := by norm_num
      rw [heq] at h
      exact h
    have h4 : Real.exp 14 * normCdf (-6.4) ≤ Real.exp (-6.48) := by
      calc Real.exp 14 * normCdf (-6.4) ≤ Real.exp 14 * Real.exp (-20.48) :=
            mul_le_mul_of_nonneg_left h3 (Real.exp_pos 14).le
        _ = Real.exp (14 + -20.48) := (Real.exp_add 14 (-20.48)).symm
        _ = Real.exp (-6.48) := by norm_num
    have h5 : Real.exp (-6.48) ≤ Real.exp (-6) := Real.exp_le_exp.2 (by norm_num)
    have h7 := normCdf_nonneg (-6.4)
    linarith
  have hPle : black_scholes_price 1 (Real.exp 14) 0 0 10 1 OptionType.C ≤ 1 := by
    have h : black_scholes_price 1 (Real.exp 14) 0 0 10 1 OptionType.C
        ≤ 1 * Real.exp (-0 * 1) :=
      bs_call_upper (by norm_num) (Real.exp_pos 14) (by norm_num) (by norm_num)
    have hz : (1 : ℝ) * Real.exp (-0 * 1) = 1 := by
      norm_num
    linarith
  have hstart : black_scholes_price 1 (Real.exp 14) 0 0 0.2 1 OptionType.C ≤ 0.0025 := by
    rw [hbseval 0.2 (by norm_num)]
    have hd1 : ((-14 : ℝ) + 0.2 ^ 2 / 2) / 0.2 = -69.9 := by norm_num
    rw [hd1]
    have h1 : normCdf (-69.9) ≤ Real.exp (-69.9 ^ 2 / 2) := by
      have h := normCdf_neg_le_exp 69.9 (by norm_num)
      exact h
    have h2 : Real.exp (-69.9 ^ 2 / 2) ≤ Real.exp (-6) := Real.exp_le_exp.2 (by norm_num)
    have h4 : 0 ≤ Real.exp 14 * normCdf (-69.9 - 0.2) := by
      have := normCdf_nonneg (-69.9 - 0.2)
      positivity
    linarith
  have hvega : bsm_vega 1 (Real.exp 14) 0 0 0.2 1 < 1e-8 := by
    unfold bsm_vega
    rw [if_neg (by norm_num), if_neg (by push_neg; exact ⟨by norm_num, Real.exp_pos 14⟩)]
    rw [hd1eval 0.2 (by norm_num)]
    have hd1 : ((-14 : ℝ) + 0.2 ^ 2 / 2) / 0.2 = -69.9 := by norm_num
    rw [hd1, Real.sqrt_one]
    have h1 : gauss (-69.9) ≤ Real.exp (-(-69.9 : ℝ) ^ 2 / 2) := hgle (-69.9)
    have h2 : Real.exp (-(-69.9 : ℝ) ^ 2 / 2) ≤ Real.exp (-19) :=
      Real.exp_le_exp.2 (by norm_num)
    have h4 := gauss_pos (-69.9 : ℝ)
    calc 1 * Real.exp (-0 * 1) * 1 * gauss (-69.9) = gauss (-69.9) := by
          simp [Real.exp_zero]
      _ < 1e-8 := by linarith
  have hbracket : ∀ s : ℝ, 0 < s → s ≤ 5 →
      black_scholes_price 1 (Real.exp 14) 0 0 s 1 OptionType.C ≤ 1 / 2 := by
    intro s hlo hhi
    have hmono : black_scholes_price 1 (Real.exp 14) 0 0 s 1 OptionType.C
        ≤ black_scholes_price 1 (Real.exp 14) 0 0 5 1 OptionType.C := by
      rcases eq_or_lt_of_le hhi with heq | hlt
      · rw [heq]
      · exact (bs_lt_bs_of_sigma_lt 1 (Real.exp 14) 0 0 1 s 5
          (by norm_num) (Real.exp_pos 14) (by norm_num) hlo hlt OptionType.C).le
    have h5 : black_scholes_price 1 (Real.exp 14) 0 0 5 1 OptionType.C ≤ 1 / 2 := by
      rw [hbseval 5 (by norm_num)]
      have hd1 : ((-14 : ℝ) + 5 ^ 2 / 2) / 5 = -0.3 := by norm_num
      rw [hd1]
      have h1 : normCdf (-0.3) ≤ normCdf 0 :=
        setIntegral_mono_set (integrableOn_gauss _)
          (Eventually.of_forall fun t => gauss_nonneg t)
          (HasSubset.Subset.eventuallyLE (Iic_subset_Iic.2 (by norm_num)))
      have h2 : 0 ≤ Real.exp 14 * normCdf (-0.3 - 5) := by
        have := normCdf_nonneg (-0.3 - 5)
        positivity
      have h3 : normCdf 0 = 1 / 2 := by
        have h := normCdf_neg 0
        rw [neg_zero] at h
        linarith
      linarith
    linarith
  have hnewton : Utils.implied_vol_newton
      (black_scholes_price 1 (Real.exp 14) 0 0 10 1 OptionType.C)
      1 (Real.exp 14) 0 0 1 OptionType.C 1e-6 0.2 30 = none := by
    rw [show (30 : ℕ) = 29 + 1 from rfl, Utils.implied_vol_newton]
    have hdiff : ¬ |black_scholes_price 1 (Real.exp 14) 0 0 0.2 1 OptionType.C
        - black_scholes_price 1 (Real.exp 14) 0 0 10 1 OptionType.C| < 1e-6 := by
      have h2 := neg_le_abs (black_scholes_price 1 (Real.exp 14) 0 0 0.2 1 OptionType.C
        - black_scholes_price 1 (Real.exp 14) 0 0 10 1 OptionType.C)
      push_neg
      linarith
    rw [if_neg hdiff, if_pos hvega]
  have hbounds : ¬ (black_scholes_price 1 (Real.exp 14) 0 0 10 1 OptionType.C
        < (price_bounds 1 (Real.exp 14) 0 0 1 OptionType.C).1 - 1e-12
      ∨ black_scholes_price 1 (Real.exp 14) 0 0 10 1 OptionType.C
        > (price_bounds 1 (Real.exp 14) 0 0 1 OptionType.C).2 + 1e-12) := by
    have h14 : (1 : ℝ) ≤ Real.exp 14 := Real.one_le_exp (by norm_num)
    have hpb1 : (price_bounds 1 (Real.exp 14) 0 0 1 OptionType.C).1 = 0 := by
      simp only [price_bounds]
      norm_num [Real.exp_zero]
    have hpb2 : (price_bounds 1 (Real.exp 14) 0 0 1 OptionType.C).2 = 1 := by
      simp only [price_bounds]
      norm_num [Real.exp_zero]
    push_neg
    rw [hpb1, hpb2]
    constructor <;> linarith
  have hiveq : Utils.implied_volatility
      (black_scholes_price 1 (Real.exp 14) 0 0 10 1 OptionType.C)
      1 (Real.exp 14) 0 0 1 OptionType.C 0.2 1e-6 30 1e-6 5 200
      = some (Utils.implied_vol_bisection
          (black_scholes_price 1 (Real.exp 14) 0 0 10 1 OptionType.C)
          1 (Real.exp 14) 0 0 1 OptionType.C 1e-6 1e-6 5 200) := by
    rw [Utils.implied_volatility, if_neg (by norm_num : ¬ (1 : ℝ) ≤ 0), hnewton]
    simp only
    rw [if_neg hbounds]
  rw [hiveq]
  simp only [Option.elim]
  have hmem := Utils.implied_vol_bisection_mem
    (black_scholes_price 1 (Real.exp 14) 0 0 10 1 OptionType.C)
    1 (Real.exp 14) 0 0 1 OptionType.C 1e-6 200 1e-6 5 (by norm_num)
  have hs0pos : (0 : ℝ) < Utils.implied_vol_bisection
      (black_scholes_price 1 (Real.exp 14) 0 0 10 1 OptionType.C)
      1 (Real.exp 14) 0 0 1 OptionType.C 1e-6 1e-6 5 200 :=
    lt_of_lt_of_le (by norm_num) hmem.1
  have hs0price := hbracket _ hs0pos hmem.2
  have habs := neg_le_abs (black_scholes_price 1 (Real.exp 14) 0 0
      (Utils.implied_vol_bisection (black_scholes_price 1 (Real.exp 14) 0 0 10 1 OptionType.C)
        1 (Real.exp 14) 0 0 1 OptionType.C 1e-6 1e-6 5 200) 1 OptionType.C
    - black_scholes_price 1 (Real.exp 14) 0 0 10 1 OptionType.C)
  linarith

/-- C2 amended: for every `S > 0`, `K > 0`, real `r` and `q`, `sigma > 0`,
`tau > 0` and kind, calling `implied_volatility` with default settings on
the model price produced by `black_scholes_price` returns a volatility (not
absent).  The original re-pricing guarantee within `tol * 10` does not hold
in general: when Newton is inconclusive and the true volatility exceeds the
`5.0` bisection ceiling, the best-effort bisection result re-prices with an
arbitrarily large error (see the counterexample). -/
theorem claim_C2_amended (S K r q sigma tau : ℝ) (hS : 0 < S) (hK : 0 < K)
    (hsigma : 0 < sigma) (htau : 0 < tau) (ot : OptionType) :
    (Utils.implied_volatility (black_scholes_price S K r q sigma tau ot)
        S K r q tau ot 0.2 1e-6 30 1e-6 5 200).isSome := by
  rw [Utils.implied_volatility, if_neg (not_le.2 htau)]
  rcases hnr : Utils.implied_vol_newton (black_scholes_price S K r q sigma tau ot)
      S K r q tau ot 1e-6 0.2 30 with _ | v
  · simp only
    have hmem := bs_price_mem_bounds S K r q tau hS hK htau sigma ot
    rw [if_neg]
    · simp
    · push_neg
      constructor <;> linarith [hmem.1, hmem.2]
  · simp

/-- Witness for the amended C2 at `S = K = tau = sigma = 1`, `r = q = 0`. -/
theorem claim_C2_witness :
    (0 : ℝ) < 1 ∧
      (Utils.implied_volatility (black_scholes_price 1 1 0 0 1 1 OptionType.C)
          1 1 0 0 1 OptionType.C 0.2 1e-6 30 1e-6 5 200).isSome :=
  ⟨by norm_num,
    claim_C2_amended 1 1 0 0 1 1 (by norm_num) (by norm_num) (by norm_num) (by norm_num)
      OptionType.C⟩

/-! ### Concrete quote records used by the processor claims -/

/-- A well-formed record whose bid and ask keys are present and zero. -/
def zeroQuoteRow : RawRow :=
  { symbol := some "AAPL", expiry := some "2025-01-17", strike := some 150,
    type := some OptionType.C, bid := some (some 0), ask := some (some 0) }

/-- A well-formed record whose bid and ask keys are present but hold `None`. -/
def noneQuoteRow : RawRow :=
  { symbol := some "AAPL", expiry := some "2025-01-17", strike := some 155,
    type := some OptionType.C, bid := some none, ask := some none }

/-- A record with both sides present, the bid exactly zero and the ask `2`. -/
def halfQuoteRow : RawRow :=
  { symbol := some "AAPL", expiry := some "2025-01-17", strike := some 150,
    type := some OptionType.C, bid := some (some 0), ask := some (some 2) }

/-- A record lacking the `bid` key. -/
def badQuoteRow : RawRow :=
  { symbol := some "AAPL", expiry := some "2025-01-17", strike := some 150,
    type := some OptionType.C, bid := none, ask := some (some 1) }

/-- The point `process_chain` emits for `zeroQuoteRow`. -/
def zeroQuotePoint : OptionPoint :=
  { symbol := "AAPL", expiry := "2025-01-17", strike := 150, type := OptionType.C,
    bid := some 0, ask := some 0, mid := none, implied_vol := none,
    delta := none, gamma := none, theta := none, rho := none }

lemma processRow_zeroQuoteRow (r q spot tau : ℝ) :
    processRow r q spot tau zeroQuoteRow = Except.ok zeroQuotePoint := by
  simp [processRow, zeroQuoteRow, zeroQuotePoint, rowMid, rowIV, rowGreeks, getKey,
    Bind.bind, Except.bind]

/-- C1 counterexample: in a batch of two quotes whose second record lacks
the `bid` key, the whole `process_chain` call raises `KeyError` (embedded
as `Except.error ()`): no Priced Point is returned for either quote, the
well-formed sibling included. -/
theorem claim_C1_counterexample :
    process_chain 0.05 0 [zeroQuoteRow, badQuoteRow] 100 1 = Except.error () := by
  rw [process_chain, processRow_zeroQuoteRow]
  rw [process_chain]
  have hbad : processRow 0.05 0 100 1 badQuoteRow = Except.error () := by
    simp [processRow, badQuoteRow, getKey, Bind.bind, Except.bind]
  rw [hbad]
  rfl

/-- C1 amended: for a positive spot, a batch in which every quote record has
all six keys (`symbol`, `expiry`, `strike`, `type`, `bid`, `ask`) present —
their values may still be `None` — is processed without raising into exactly
one Priced Point per input quote, in input order (each output point carries
the symbol and strike of its input record).  The original claim fails for a
record with a missing key: the uncaught `KeyError` aborts the whole batch,
sibling quotes included (see the counterexample).  The `spot > 0` hypothesis
mirrors the data model; the real embedding does not model Python float
faults such as `0.0 / 0.0` at a zero spot. -/
theorem claim_C1_amended (r q spot tau : ℝ) (raw_chain : List RawRow) (_hspot : 0 < spot)
    (hkeys : ∀ row ∈ raw_chain, row.symbol.isSome ∧ row.expiry.isSome ∧ row.strike.isSome
      ∧ row.type.isSome ∧ row.bid.isSome ∧ row.ask.isSome) :
    ∃ pts, process_chain r q raw_chain spot tau = Except.ok pts
      ∧ pts.length = raw_chain.length
      ∧ List.Forall₂ (fun row pt => row.symbol = some pt.symbol ∧ row.strike = some pt.strike)
          raw_chain pts := by
  have hok : ∃ pts, process_chain r q raw_chain spot tau = Except.ok pts ∧
      List.Forall₂ (fun row pt => row.symbol = some pt.symbol ∧ row.strike = some pt.strike)
        raw_chain pts := by
    induction raw_chain with
    | nil => exact ⟨[], rfl, List.Forall₂.nil⟩
    | cons row rest ih =>
      obtain ⟨h1, h2, h3, h4, h5, h6⟩ := hkeys row (List.mem_cons_self row rest)
      obtain ⟨sy, hsy⟩ := Option.isSome_iff_exists.1 h1
      obtain ⟨ex, hex⟩ := Option.isSome_iff_exists.1 h2
      obtain ⟨k, hk⟩ := Option.isSome_iff_exists.1 h3
      obtain ⟨t, ht⟩ := Option.isSome_iff_exists.1 h4
      obtain ⟨bv, hbv⟩ := Option.isSome_iff_exists.1 h5
      obtain ⟨av, hav⟩ := Option.isSome_iff_exists.1 h6
      obtain ⟨pt, hpt, hptsy, hptk⟩ :=
        processRow_ok_of_keys r q spot tau row sy ex k t bv av hsy hex hk ht hbv hav
      obtain ⟨pts, hpts, hfa⟩ :=
        ih fun row2 hrow2 => hkeys row2 (List.mem_cons_of_mem row hrow2)
      refine ⟨pt :: pts, ?_, List.Forall₂.cons ⟨by rw [hsy, hptsy], by rw [hk, hptk]⟩ hfa⟩
      rw [process_chain]
      rw [hpt, hpts]
      rfl
  obtain ⟨pts, h1, h2⟩ := hok
  exact ⟨pts, h1, (List.Forall₂.length_eq h2).symm, h2⟩

/-- Witness for the amended C1: the spec batch-isolation scenario, three
quotes whose middle record carries `None` bid and ask. -/
theorem claim_C1_witness :
    (0 : ℝ) < 100
      ∧ (∀ row ∈ [zeroQuoteRow, noneQuoteRow, zeroQuoteRow],
          row.symbol.isSome ∧ row.expiry.isSome ∧ row.strike.isSome
            ∧ row.type.isSome ∧ row.bid.isSome ∧ row.ask.isSome)
      ∧ ∃ pts, process_chain 0.05 0 [zeroQuoteRow, noneQuoteRow, zeroQuoteRow] 100 1
            = Except.ok pts
          ∧ pts.length = [zeroQuoteRow, noneQuoteRow, zeroQuoteRow].length
          ∧ List.Forall₂
              (fun row pt => row.symbol = some pt.symbol ∧ row.strike = some pt.strike)
              [zeroQuoteRow, noneQuoteRow, zeroQuoteRow] pts := by
  have hkeys : ∀ row ∈ [zeroQuoteRow, noneQuoteRow, zeroQuoteRow],
      row.symbol.isSome ∧ row.expiry.isSome ∧ row.strike.isSome
        ∧ row.type.isSome ∧ row.bid.isSome ∧ row.ask.isSome := by
    intro row hrow
    simp only [List.mem_cons, List.not_mem_nil, or_false] at hrow
    rcases hrow with rfl | rfl | rfl <;> exact ⟨rfl, rfl, rfl, rfl, rfl, rfl⟩
  exact ⟨by norm_num, hkeys,
    claim_C1_amended 0.05 0 100 1 [zeroQuoteRow, noneQuoteRow, zeroQuoteRow]
      (by norm_num) hkeys⟩

/-- C5 counterexample: a quote with both sides present, `bid = 0` and
`ask = 2`, is processed successfully but its emitted mid is absent, not
`(0 + 2) / 2 = 1` as the claim demands: the Python truthiness test
`if (bid and ask)` treats a present zero bid as missing. -/
theorem claim_C5_counterexample :
    (processRow 0.05 0 100 1 halfQuoteRow).map OptionPoint.mid = Except.ok none := by
  simp [processRow, halfQuoteRow, rowMid, rowIV, rowGreeks, getKey,
    Bind.bind, Except.bind, Except.map]

/-- C5 amended: for every successfully processed quote whose bid and ask
keys are present, the emitted mid equals `(bid + ask) / 2` whenever both
sides are present and nonzero, and is absent whenever either side is
missing or zero (Python truthiness; the original claim omitted the zero
case).  There is no fallback to a last-trade price: the processor rows
carry no such field.  When the mid is absent or nonpositive the emitted
point has `implied_vol` and all four Greeks absent; the root finder is not
called on this path (`rowIV` returns `none` without touching the solver). -/
theorem claim_C5_amended (r q spot tau : ℝ) (row : RawRow) (pt : OptionPoint)
    (bv av : Option ℝ) (hb : row.bid = some bv) (ha : row.ask = some av)
    (h : processRow r q spot tau row = Except.ok pt) :
    (∀ b a, bv = some b → av = some a → b ≠ 0 → a ≠ 0 → pt.mid = some ((b + a) / 2))
      ∧ ((bv = none ∨ av = none ∨ bv = some 0 ∨ av = some 0) → pt.mid = none)
      ∧ ((pt.mid = none ∨ ∃ m, pt.mid = some m ∧ m ≤ 0) →
          pt.implied_vol = none ∧ pt.delta = none ∧ pt.gamma = none ∧ pt.theta = none
            ∧ pt.rho = none) := by
  obtain ⟨bv2, av2, g, hb2, ha2, hbid, hask, hmid, hiv, hg, hd, hga, hth, hrh, _, _, _, _⟩ :=
    processRow_ok_elim r q spot tau row pt h
  have hbv : bv2 = bv := Option.some_injective _ (hb2.symm.trans hb)
  have hav : av2 = av := Option.some_injective _ (ha2.symm.trans ha)
  rw [hbv, hav] at hmid hiv hg
  refine ⟨?_, ?_, ?_⟩
  · intro b a hbvb hava hbne hane
    rw [hmid, hbvb, hava]
    simp [rowMid, hbne, hane]
  · intro hcase
    rw [hmid]
    rcases hcase with rfl | rfl | rfl | rfl
    · rcases av with _ | a <;> simp [rowMid]
    · rcases bv with _ | b <;> simp [rowMid]
    · rcases av with _ | a <;> simp [rowMid]
    · rcases bv with _ | b <;> simp [rowMid]
  · intro hcase
    have hmid2 : rowMid bv av = none ∨ ∃ m, rowMid bv av = some m ∧ m ≤ 0 := by
      rcases hcase with hnone | ⟨m, hm, hmle⟩
      · exact Or.inl (hmid ▸ hnone)
      · exact Or.inr ⟨m, hmid ▸ hm, hmle⟩
    have hivnone : rowIV r q spot tau row (rowMid bv av) = none := by
      rcases hmid2 with hnone | ⟨m, hm, hmle⟩
      · rw [hnone]
        rfl
      · rw [hm]
        simp [rowIV, not_lt.2 hmle]
    rw [hivnone] at hiv hg
    rw [rowGreeks_none] at hg
    have hgeq : g = (none, none, none, none) := by
      injection hg with hg2
      exact hg2.symm
    rw [hgeq] at hd hga hth hrh
    exact ⟨hiv, hd, hga, hth, hrh⟩

/-- Witness for the amended C5 on the zero-bid, zero-ask record. -/
theorem claim_C5_witness :
    processRow 0.05 0 100 1 zeroQuoteRow = Except.ok zeroQuotePoint
      ∧ ((some (0 : ℝ) = none ∨ some (0 : ℝ) = none ∨ some (0 : ℝ) = some 0
            ∨ some (0 : ℝ) = some 0) → zeroQuotePoint.mid = none) :=
  have h : processRow 0.05 0 100 1 zeroQuoteRow = Except.ok zeroQuotePoint :=
    processRow_zeroQuoteRow 0.05 0 100 1
  ⟨h, (claim_C5_amended 0.05 0 100 1 zeroQuoteRow zeroQuotePoint (some 0) (some 0)
      rfl rfl h).2.1⟩

/-- C8: For every Priced Point emitted by a successful `process_chain` call,
the four Greeks `delta`, `gamma`, `theta`, `rho` are present if and only if
`implied_vol` is present, for every input batch and market context. -/
theorem claim_C8 (r q spot tau : ℝ) (raw_chain : List RawRow) (pts : List OptionPoint)
    (h : process_chain r q raw_chain spot tau = Except.ok pts)
    (pt : OptionPoint) (hpt : pt ∈ pts) :
    (pt.implied_vol.isSome ↔ pt.delta.isSome) ∧ (pt.implied_vol.isSome ↔ pt.gamma.isSome)
      ∧ (pt.implied_vol.isSome ↔ pt.theta.isSome)
      ∧ (pt.implied_vol.isSome ↔ pt.rho.isSome) := by
  induction raw_chain generalizing pts with
  | nil =>
    rw [process_chain] at h
    injection h with h2
    rw [← h2] at hpt
    simp at hpt
  | cons row rest ih =>
    rw [process_chain] at h
    rcases hrow : processRow r q spot tau row with e | pt0 <;> rw [hrow] at h
    · simp [Bind.bind, Except.bind] at h
    rcases hrest : process_chain r q rest spot tau with e | pts0 <;> rw [hrest] at h
    · simp [Bind.bind, Except.bind] at h
    simp only [Bind.bind, Except.bind, Except.ok.injEq] at h
    rw [← h] at hpt
    rcases List.mem_cons.1 hpt with heq | hmem
    · rw [heq]
      exact processRow_joint r q spot tau row pt0 hrow
    · exact ih pts0 hrest hmem

/-- Witness for C8 on a one-quote batch. -/
theorem claim_C8_witness :
    process_chain 0.05 0 [zeroQuoteRow] 100 1 = Except.ok [zeroQuotePoint]
      ∧ ((zeroQuotePoint.implied_vol.isSome ↔ zeroQuotePoint.delta.isSome)
        ∧ (zeroQuotePoint.implied_vol.isSome ↔ zeroQuotePoint.gamma.isSome)
        ∧ (zeroQuotePoint.implied_vol.isSome ↔ zeroQuotePoint.theta.isSome)
        ∧ (zeroQuotePoint.implied_vol.isSome ↔ zeroQuotePoint.rho.isSome)) :=
  have h : process_chain 0.05 0 [zeroQuoteRow] 100 1 = Except.ok [zeroQuotePoint] := by
    rw [process_chain, processRow_zeroQuoteRow]
    rfl
  ⟨h, claim_C8 0.05 0 100 1 [zeroQuoteRow] [zeroQuotePoint] h zeroQuotePoint
    (List.mem_singleton.2 rfl)⟩

end OptionLab
